import Mathlib

/-!
# wishCLI: a verification development for `src/main.c`

A shallow embedding of the `wish` shell (read a line, split it into tokens,
dispatch to a builtin or launch a process) and theorems about it.

Modelling conventions.

* A C string is the `List Char` of the bytes in front of its terminating NUL.
  Functions that scan a buffer as a C string (`strtok`) stop at the first NUL,
  which is `cstr`.
* A `char **` argument vector is the list of the cells that were written, a
  `none` cell being the NULL pointer. `nullTerminated toks` is the vector that
  holds the tokens `toks` followed by the NULL sentinel.
* The operating system is a record `OS` of answers (does this allocation
  succeed, what does `fork` return, which statuses does `waitpid` report ...)
  that may depend on the trace of effects so far. Theorems quantify over it.
* A function does not only return: it may end the process (`exit`), replace the
  process image (`execvp`), or block forever in `waitpid`. `Outcome` lists these.
* `wish_readline` is the default build; `wish_readline_getline` is the build with
  `WISH_USE_STD_GETLINE`.
* In `wish_readline` and `wish_split_line` the `int` counters `bufsize` and
  `position` are natural numbers. `wish_readline_int` is the line reader with
  the counters as 32-bit integers: the two agree on lines of fewer than
  `2^31 - 1024` characters, and on longer lines `bufsize` overflows.
-/

namespace Wish

/-! ## Effects, world and outcomes -/

/-- What `waitpid(pid, &status, WUNTRACED)` can report about a child. -/
inductive WaitStatus where
  | exited (code : Nat)
  | signaled (sig : Nat)
  | stopped (sig : Nat)
  deriving DecidableEq

/-- The macro `WIFEXITED`. -/
def WIFEXITED : WaitStatus → Bool
  | .exited _ => true
  | _ => false

/-- The macro `WIFSIGNALED`. -/
def WIFSIGNALED : WaitStatus → Bool
  | .signaled _ => true
  | _ => false

/-- The three ways `fork()` returns: `0` in the new child, a negative value on
failure, the child's pid in the parent. -/
inductive ForkResult where
  | child
  | failed
  | parent (pid : Nat)
  deriving DecidableEq

/-- An observable effect of the shell process. -/
inductive Event where
  /-- Bytes written to standard output. -/
  | stdout (s : List Char)
  /-- Bytes written to standard error by `fprintf(stderr, ...)`. -/
  | stderr (s : List Char)
  /-- The call `perror(tag)`: the tag and the text of `errno` go to standard error. -/
  | perror (tag : List Char)
  /-- The call `chdir(path)` and whether it succeeded. -/
  | chdir (path : List Char) (ok : Bool)
  /-- The call `fork()` and what it returned. -/
  | fork (r : ForkResult)
  /-- The call `execvp(file, argv)`. -/
  | execvp (file : Option (List Char)) (argv : List (Option (List Char)))
  /-- One call `waitpid(pid, &status, WUNTRACED)` and the status it stored. -/
  | waitpid (pid : Nat) (st : WaitStatus)
  /-- One call `waitpid(pid, &status, WUNTRACED)` that failed: it returned `-1` and stored no
  status. -/
  | waitpidFailed (pid : Nat)
  deriving DecidableEq

/-- The state of the shell process that the program can change. -/
structure World where
  /-- The unread content of standard input. -/
  stdin : List Char
  /-- What follows the unread content: a read error (`true`) or the end of the input (`false`). -/
  readError : Bool
  /-- The working directory. -/
  cwd : List Char
  /-- The effects so far, oldest first. -/
  trace : List Event
  deriving DecidableEq

/-- The answers of the operating system. Each may depend on the effects so far. -/
structure OS where
  /-- Does `malloc` / `realloc` of this many bytes succeed? -/
  alloc : List Event → Nat → Bool
  /-- The call `chdir(path)` from working directory `cwd`: the new working directory, or `none`
  when the call fails. -/
  chdir : List Event → List Char → List Char → Option (List Char)
  /-- What `fork()` returns. -/
  fork : List Event → ForkResult
  /-- Does `execvp(file, argv)` replace the process image (`true`) or fail and return `-1`? -/
  execvp : List Event → Option (List Char) → List (Option (List Char)) → Bool
  /-- The statuses that successive `waitpid` calls on the child `pid` report, in order; after the
  last one the child never changes state again and `waitpid` blocks. -/
  wait : List Event → Nat → List WaitStatus
  /-- When the statuses of `wait` are used up: does `waitpid` on the child `pid` fail (`true`: it
  returns `-1` at once, as with `ECHILD`, and stores no status) instead of blocking (`false`)?
  The shell installs no signal handler, so no call fails before that. -/
  waitFails : List Event → Nat → Bool
  /-- The indeterminate value that the variable `status` of `wish_launch` holds before a
  `waitpid` call has stored one. -/
  uninit : List Event → WaitStatus
  /-- What the shell finds unread on standard input when it comes back to read after a pass of
  its loop, given the effects so far and what its own reads have left. The children launched in
  the pass share standard input with the shell: a program that reads takes input away, and a
  child that ends through `exit()` flushes its copy of the shell's input buffer, which moves the
  shared file offset back, so that the shell reads again what it has read already. -/
  stdinNext : List Event → List Char → List Char

/-- How a call of a C function of the shell ends. -/
inductive Outcome (α : Type) where
  /-- The function returned `a`. -/
  | ret (a : α) (w : World)
  /-- The process ended through `exit(code)`. -/
  | exit (code : Int) (w : World)
  /-- The process image was replaced by `execvp(file, argv)`. -/
  | exec (file : Option (List Char)) (argv : List (Option (List Char))) (w : World)
  /-- The process never leaves the wait loop of `wish_launch`: `waitpid` blocks for ever, or it
  fails again and again with a status that is neither an exit nor a signal termination. -/
  | blocked (w : World)
  /-- A store outside the allocated block (undefined behaviour). -/
  | undef (w : World)
  /-- The bound on the number of loop iterations of the model was reached. -/
  | nofuel
  deriving DecidableEq

/-- Sequencing: continue with `f` after a normal return, else keep the way the call ended. -/
def Outcome.bind {α β : Type} (o : Outcome α) (f : α → World → Outcome β) : Outcome β :=
  match o with
  | .ret a w => f a w
  | .exit code w => .exit code w
  | .exec file argv w => .exec file argv w
  | .blocked w => .blocked w
  | .undef w => .undef w
  | .nofuel => .nofuel

/-- The value `EXIT_SUCCESS`. -/
def EXIT_SUCCESS : Int := 0

/-- The value `EXIT_FAILURE`. -/
def EXIT_FAILURE : Int := 1

/-- The effect of `printf(s)`. -/
def printf (w : World) (s : List Char) : World :=
  { w with trace := w.trace ++ [Event.stdout s] }

/-- The effect of `fprintf(stderr, s)`. -/
def eprintf (w : World) (s : List Char) : World :=
  { w with trace := w.trace ++ [Event.stderr s] }

/-- The effect of `perror(tag)`. -/
def perror (w : World) (tag : List Char) : World :=
  { w with trace := w.trace ++ [Event.perror tag] }

/-- The effect `buf[pos] = x` on a block of `cap` cells whose cells below `pos` are `buf`
(cells are written in index order); `none` when `pos` is outside the block. -/
def store {α : Type} (cap pos : Nat) (buf : List α) (x : α) : Option (List α) :=
  if pos < cap then some (buf.take pos ++ [x]) else none

/-! ## C strings and argument vectors -/

/-- The NUL character. -/
def NUL : Char := Char.ofNat 0

/-- The bytes of a buffer read as a C string: those in front of the first NUL. -/
def cstr (buf : List Char) : List Char :=
  buf.takeWhile (fun c => c != NUL)

/-- The argument vector that holds the tokens `toks` and then the NULL sentinel. -/
def nullTerminated (toks : List (List Char)) : List (Option (List Char)) :=
  toks.map some ++ [none]

/-- The read `args[i]` of an argument vector; NULL is `none`. A NULL-terminated vector is never
read beyond its sentinel. -/
def argAt (args : List (Option (List Char))) (i : Nat) : Option (List Char) :=
  (args.get? i).join

/-! ## The tokenizer, `wish_split_line` -/

/-- The constant `WISH_TOK_BUFSIZE`. -/
def WISH_TOK_BUFSIZE : Nat := 64

/-- The constant `WISH_TOK_DELIM`, the string " \t\r\n\a". -/
def WISH_TOK_DELIM : List Char := [' ', '\t', '\r', '\n', Char.ofNat 7]

/-- The size of a `char *`, in bytes. -/
def sizeof_ptr : Nat := 8

/-- The library function `strtok` on the NUL-free text `s` that starts at its saved position:
skip the leading delimiters; at the end of the text there is no token (`none`); otherwise the
token runs up to the next delimiter, which is overwritten by NUL, and the saved position moves
behind it. -/
def strtok (delim : List Char) (s : List Char) : Option (List Char × List Char) :=
  match s.dropWhile (fun c => decide (c ∈ delim)) with
  | [] => none
  | c :: r =>
    some ((c :: r).takeWhile (fun c => !decide (c ∈ delim)),
          ((c :: r).dropWhile (fun c => !decide (c ∈ delim))).drop 1)

/-- The `while (token != NULL)` loop of `wish_split_line`. `token` is the result of the last
`strtok` call: `none` for NULL, else the token and the saved position of `strtok`. -/
def wish_split_loop (os : OS) (w : World) :
    Nat → Option (List Char × List Char) → Nat → Nat → List (Option (List Char)) →
      Outcome (List (Option (List Char)))
  | _, none, bufsize, position, tokens =>
    match store bufsize position tokens none with
    | none => .undef w
    | some tokens => .ret tokens w
  | 0, some _, _, _, _ => .nofuel
  | fuel + 1, some (token, saved), bufsize, position, tokens =>
    match store bufsize position tokens (some token) with
    | none => .undef w
    | some tokens =>
      let position := position + 1
      if position ≥ bufsize then
        let bufsize := bufsize + WISH_TOK_BUFSIZE
        if os.alloc w.trace (bufsize * sizeof_ptr) then
          wish_split_loop os w fuel (strtok WISH_TOK_DELIM saved) bufsize position tokens
        else
          .exit EXIT_FAILURE (eprintf w "wish: allocation error\n".toList)
      else
        wish_split_loop os w fuel (strtok WISH_TOK_DELIM saved) bufsize position tokens

/-- The function `wish_split_line`. Every `strtok` call that returns a token moves the saved
position forward, so `line.length` iterations are enough. -/
def wish_split_line (os : OS) (w : World) (line : List Char) :
    Outcome (List (Option (List Char))) :=
  let bufsize := WISH_TOK_BUFSIZE
  let position := 0
  if os.alloc w.trace (bufsize * sizeof_ptr) then
    wish_split_loop os w line.length (strtok WISH_TOK_DELIM (cstr line)) bufsize position []
  else
    .exit EXIT_FAILURE (eprintf w "wish: allocation error\n".toList)

/-- The specification of the tokenizer: the maximal non-empty runs of characters of `s` that are
not delimiters, from left to right. Splitting at every delimiter gives the (possibly empty)
pieces between two neighbouring delimiters; the non-empty ones are the maximal runs. -/
def maximalRuns (delim : List Char) (s : List Char) : List (List Char) :=
  (s.splitOnP (fun c => decide (c ∈ delim))).filter (fun r => !r.isEmpty)

/-- The same specification as a relation. `Runs delim s toks`: the text `s` is made of the
tokens `toks` in order; every token is non-empty and holds no delimiter; every character outside
the tokens is a delimiter; and every token is maximal, since what follows it is the end of the
text or a delimiter (hence so is what precedes the next token). -/
inductive Runs (delim : List Char) : List Char → List (List Char) → Prop where
  | done (gap : List Char) : (∀ c ∈ gap, c ∈ delim) → Runs delim gap []
  | token (gap t rest : List Char) (ts : List (List Char)) :
      (∀ c ∈ gap, c ∈ delim) → t ≠ [] → (∀ c ∈ t, c ∉ delim) →
      (∀ c, rest.head? = some c → c ∈ delim) → Runs delim rest ts →
      Runs delim (gap ++ t ++ rest) (t :: ts)

/-! ## The builtins -/

/-- The table `builtin_str`. -/
def builtin_str : List (List Char) := ["cd".toList, "help".toList, "exit".toList]

/-- The function `wish_num_bull`: the number of entries of `builtin_str`. -/
def wish_num_bull : Nat := builtin_str.length

/-- The builtin `cd`, `wish_command`. -/
def wish_command (os : OS) (args : List (Option (List Char))) (w : World) : Outcome Int :=
  match argAt args 1 with
  | none => .ret 1 (eprintf w "wish: expected argument to \"cd\"\n".toList)
  | some path =>
    match os.chdir w.trace w.cwd path with
    | some dir => .ret 1 { w with cwd := dir, trace := w.trace ++ [Event.chdir path true] }
    | none => .ret 1 (perror { w with trace := w.trace ++ [Event.chdir path false] } "wish".toList)

/-- The `for` loop of `wish_help_command`: `n` iterations are left, starting at index `i`. -/
def wish_help_loop : Nat → Nat → World → World
  | 0, _, w => w
  | n + 1, i, w =>
    wish_help_loop n (i + 1) (printf w ("  ".toList ++ builtin_str.getD i [] ++ "\n".toList))

/-- The builtin `help`, `wish_help_command`. The arguments are not examined. -/
def wish_help_command (_os : OS) (_args : List (Option (List Char))) (w : World) : Outcome Int :=
  let w := printf w "Type program names and arguments, and hit enter.\n".toList
  let w := printf w "The following are built in:\n".toList
  let w := wish_help_loop wish_num_bull 0 w
  let w := printf w "Use the man command for information on other programs.\n".toList
  .ret 1 w

/-- The builtin `exit`, `wish_exit_command`. The arguments are not examined. -/
def wish_exit_command (_os : OS) (_args : List (Option (List Char))) (w : World) : Outcome Int :=
  .ret 0 w

/-- The table `builtin_func`, parallel to `builtin_str`. -/
def builtin_func : List (OS → List (Option (List Char)) → World → Outcome Int) :=
  [wish_command, wish_help_command, wish_exit_command]

/-! ## The process launcher, `wish_launch` -/

/-- The `do ... while (!WIFEXITED(status) && !WIFSIGNALED(status))` loop of `wish_launch`. The
first argument after `fails` is the value of the variable `status`, the list holds the statuses
that the `waitpid` calls will store. The code does not look at what `waitpid` returns: when the
statuses are used up and the call fails (`fails`), `status` keeps its value and is tested as it
is, and when that value is neither an exit nor a signal termination the same failing call and
test repeat for ever. -/
def wish_wait_loop (pid : Nat) (fails : Bool) : WaitStatus → List WaitStatus → World →
    Outcome Unit
  | status, [], w =>
    if fails then
      let w := { w with trace := w.trace ++ [Event.waitpidFailed pid] }
      if !WIFEXITED status && !WIFSIGNALED status then .blocked w
      else .ret () w
    else .blocked w
  | _, status :: later, w =>
    let w := { w with trace := w.trace ++ [Event.waitpid pid status] }
    if !WIFEXITED status && !WIFSIGNALED status then wish_wait_loop pid fails status later w
    else .ret () w

/-- The function `wish_launch`. The variable `status` is not initialised. What the child does to
the standard input that it shares with the shell is applied where the shell comes back to read,
in `wish_loop_go`. -/
def wish_launch (os : OS) (args : List (Option (List Char))) (w : World) : Outcome Int :=
  let pid := os.fork w.trace
  let w := { w with trace := w.trace ++ [Event.fork pid] }
  match pid with
  | .child =>
    let w1 := { w with trace := w.trace ++ [Event.execvp (argAt args 0) args] }
    if os.execvp w.trace (argAt args 0) args then .exec (argAt args 0) args w1
    else .exit EXIT_FAILURE (perror w1 "wish".toList)
  | .failed => .ret 1 (perror w "wish".toList)
  | .parent pid =>
    (wish_wait_loop pid (os.waitFails w.trace pid) (os.uninit w.trace) (os.wait w.trace pid)
      w).bind fun _ w => .ret 1 w

/-! ## The dispatcher, `wish_execute` -/

/-- The `for` loop of `wish_execute` over the builtin table: `n` iterations are left, starting at
index `i`; `arg0` is the string `args[0]`. After the loop comes `return wish_launch(args)`. -/
def wish_execute_loop (os : OS) (args : List (Option (List Char))) (w : World)
    (arg0 : List Char) : Nat → Nat → Outcome Int
  | 0, _ => wish_launch os args w
  | n + 1, i =>
    match builtin_str.get? i, builtin_func.get? i with
    | some name, some handler =>
      if arg0 = name then handler os args w
      else wish_execute_loop os args w arg0 n (i + 1)
    | _, _ => .undef w

/-- The function `wish_execute`. -/
def wish_execute (os : OS) (args : List (Option (List Char))) (w : World) : Outcome Int :=
  match argAt args 0 with
  | none => .ret 1 w
  | some arg0 => wish_execute_loop os args w arg0 wish_num_bull 0

/-! ## The line reader, `wish_readline` (the build without `WISH_USE_STD_GETLINE`) -/

/-- The constant `WISH_RL_BUFSIZE`. -/
def WISH_RL_BUFSIZE : Nat := 1024

/-- The `while (1)` loop of `wish_readline`, by recursion on the unread input: the head of
`input` is what `getchar()` returns, and at its end `getchar()` returns `EOF`, be it the end of
the input or a read error. The value returned is the buffer, terminating NUL included. The
counters are natural numbers here; `wish_readline_loop_int` is the loop with the `int` counters
of the source, which does the same on lines of fewer than `2^31 - 1024` characters
(`wish_readline_int_agrees`). -/
def wish_readline_loop (os : OS) (w : World) :
    List Char → Nat → Nat → List Char → Outcome (List Char)
  | [], _, _, _ => .exit EXIT_SUCCESS { w with stdin := [] }
  | c :: input, bufsize, position, buffer =>
    if c = '\n' then
      match store bufsize position buffer NUL with
      | none => .undef { w with stdin := input }
      | some buffer => .ret buffer { w with stdin := input }
    else
      match store bufsize position buffer c with
      | none => .undef { w with stdin := input }
      | some buffer =>
        let position := position + 1
        if position ≥ bufsize then
          let bufsize := bufsize + WISH_RL_BUFSIZE
          if os.alloc w.trace bufsize then
            wish_readline_loop os w input bufsize position buffer
          else
            .exit EXIT_FAILURE (eprintf { w with stdin := input } "wish: allocation error\n".toList)
        else
          wish_readline_loop os w input bufsize position buffer

/-- The function `wish_readline`, with natural numbers as counters (see `wish_readline_int`). -/
def wish_readline (os : OS) (w : World) : Outcome (List Char) :=
  let bufsize := WISH_RL_BUFSIZE
  let position := 0
  if os.alloc w.trace bufsize then
    wish_readline_loop os w w.stdin bufsize position []
  else
    .exit EXIT_FAILURE (eprintf w "wish: allocation error\n".toList)

/-! ## The main loop -/

/-- One pass through the body of the `do ... while (status)` loop of `wish_loop`: the prompt,
`wish_readline`, `wish_split_line`, `wish_execute`; the value is `status`. -/
def wish_cycle (os : OS) (w : World) : Outcome Int :=
  (wish_readline os (printf w "wish> ".toList)).bind fun line w =>
    (wish_split_line os w line).bind fun args w =>
      wish_execute os args w

/-- The `do ... while (status)` loop of `wish_loop`, at most `fuel` passes. The next pass reads
what the pass before it and the children launched in it have left unread (`OS.stdinNext`). -/
def wish_loop_go (os : OS) : Nat → World → Outcome Unit
  | 0, _ => .nofuel
  | fuel + 1, w =>
    (wish_cycle os w).bind fun status w =>
      if status ≠ 0 then
        wish_loop_go os fuel { w with stdin := os.stdinNext w.trace w.stdin }
      else .ret () w

/-- The function `wish_loop`. A pass that returns has read a newline, and the pass that finds the
input empty ends the process, so one pass more than there are unread characters is enough when
the children leave the unread input as it is; when they give input back to the shell the loop may
need more passes, and `nofuel` marks that the bound was reached. -/
def wish_loop (os : OS) (w : World) : Outcome Unit :=
  wish_loop_go os (w.stdin.length + 1) w

/-- The function `main`. -/
def main (os : OS) (w : World) : Outcome Int :=
  (wish_loop os w).bind fun _ w => .ret EXIT_SUCCESS w

/-! ## The main loop as the specification words it -/

/-- One pass of the main loop on the line `line`, which is in front of a newline at the head of
the unread input: the prompt is printed, the line and its newline are taken off the input, the
line is tokenized and the token sequence is dispatched. -/
def dispatchLine (os : OS) (line : List Char) (w : World) : Outcome Int :=
  wish_execute os (nullTerminated (maximalRuns WISH_TOK_DELIM (cstr line)))
    { printf w "wish> ".toList with stdin := w.stdin.drop (line.length + 1) }

/-- How a call of the library function `getline` on standard input ends. -/
inductive GetlineResult where
  /-- A line was read: the buffer (the line, its newline if one was read, the NUL) and the input
  that is left. -/
  | line (buffer : List Char) (rest : List Char)
  /-- The value `-1` with the end-of-file indicator of the stream set. -/
  | eof
  /-- The value `-1` with the error indicator of the stream set. -/
  | error
  deriving DecidableEq

/-- The library function `getline(&line, &bufsize, stdin)`, as glibc has it: it reads up to and
including the next newline; when there is none, the characters that are left are the line,
whether the end of the input or a read error follows them; with nothing left to read it fails,
with the error indicator set on a read error and the end-of-file indicator set at the end of the
input. Its own allocation is taken to succeed. -/
def getline (input : List Char) (readError : Bool) : GetlineResult :=
  match input.dropWhile (fun c => c != '\n') with
  | _ :: rest => .line (input.takeWhile (fun c => c != '\n') ++ ['\n', NUL]) rest
  | [] =>
    if input.isEmpty then (if readError then .error else .eof)
    else .line (input ++ [NUL]) []

/-- The function `wish_readline` in the build with `WISH_USE_STD_GETLINE`; `feof(stdin)` tells
the end of the input from a read error. -/
def wish_readline_getline (w : World) : Outcome (List Char) :=
  match getline w.stdin w.readError with
  | .line buffer rest => .ret buffer { w with stdin := rest }
  | .eof => .exit EXIT_SUCCESS { w with stdin := [] }
  | .error => .exit EXIT_FAILURE (perror { w with stdin := [] } "wish: getline\n".toList)

/-! ## The stores into the token array -/

/-- The loop of `wish_split_line` once more, keeping a record of its stores in place of the
array: for every store `tokens[position] = ...`, in order, the pair of `position` and of the
capacity `bufsize` at that moment. The value is the record and the value of `bufsize` when the
loop ends, by its return or by the exit on an allocation failure; `none` when the fuel runs
out. -/
def wish_split_stores (os : OS) (w : World) :
    Nat → Option (List Char × List Char) → Nat → Nat → List (Nat × Nat) →
      Option (List (Nat × Nat) × Nat)
  | _, none, bufsize, position, stores => some (stores ++ [(position, bufsize)], bufsize)
  | 0, some _, _, _, _ => none
  | fuel + 1, some (_, saved), bufsize, position, stores =>
    let stores := stores ++ [(position, bufsize)]
    let position := position + 1
    if position ≥ bufsize then
      let bufsize := bufsize + WISH_TOK_BUFSIZE
      if os.alloc w.trace (bufsize * sizeof_ptr) then
        wish_split_stores os w fuel (strtok WISH_TOK_DELIM saved) bufsize position stores
      else
        some (stores, bufsize)
    else
      wish_split_stores os w fuel (strtok WISH_TOK_DELIM saved) bufsize position stores

/-- The record of the stores of `wish_split_line` into the token array, and the last capacity. -/
def wish_split_line_stores (os : OS) (w : World) (line : List Char) :
    Option (List (Nat × Nat) × Nat) :=
  let bufsize := WISH_TOK_BUFSIZE
  let position := 0
  if os.alloc w.trace (bufsize * sizeof_ptr) then
    wish_split_stores os w line.length (strtok WISH_TOK_DELIM (cstr line)) bufsize position []
  else
    some ([], bufsize)

/-- The capacity of a buffer that starts with `step` cells and grows by `step` cells each time
`position` reaches the capacity, when `position` cells are written. -/
def capacityAt (step position : Nat) : Nat :=
  step * (position / step + 1)

/-! ## The line reader with the counters as machine integers -/

/-- The value that the machine gives an `int` expression whose mathematical value is `x`: 32
bits, two's complement. It differs from `x` only on overflow, which C leaves undefined and the
machine wraps around. -/
def int32 (x : Int) : Int :=
  (x + 2147483648) % 4294967296 - 2147483648

/-- The conversion of an `int` to `size_t`, which has 64 bits: the argument of `malloc` and of
`realloc`. -/
def size_t (x : Int) : Nat :=
  (x % 18446744073709551616).toNat

/-- The effect `buf[position] = x` with an `int` index, on the block of `size_t bufsize` bytes
that the last allocation gave; `none` when `position` is outside the block. -/
def storeInt {α : Type} (bufsize position : Int) (buf : List α) (x : α) : Option (List α) :=
  if 0 ≤ position then store (size_t bufsize) position.toNat buf x else none

/-- The `while (1)` loop of `wish_readline` with `bufsize` and `position` as the `int` variables
that they are: `position++` and `bufsize += WISH_RL_BUFSIZE` are taken in `int`, and
`realloc(buffer, bufsize)` converts `bufsize` to `size_t`. -/
def wish_readline_loop_int (os : OS) (w : World) :
    List Char → Int → Int → List Char → Outcome (List Char)
  | [], _, _, _ => .exit EXIT_SUCCESS { w with stdin := [] }
  | c :: input, bufsize, position, buffer =>
    if c = '\n' then
      match storeInt bufsize position buffer NUL with
      | none => .undef { w with stdin := input }
      | some buffer => .ret buffer { w with stdin := input }
    else
      match storeInt bufsize position buffer c with
      | none => .undef { w with stdin := input }
      | some buffer =>
        let position := int32 (position + 1)
        if position ≥ bufsize then
          let bufsize := int32 (bufsize + WISH_RL_BUFSIZE)
          if os.alloc w.trace (size_t bufsize) then
            wish_readline_loop_int os w input bufsize position buffer
          else
            .exit EXIT_FAILURE (eprintf { w with stdin := input } "wish: allocation error\n".toList)
        else
          wish_readline_loop_int os w input bufsize position buffer

/-- The function `wish_readline` of the default build with its counters as `int`. It is
`wish_readline` as long as no counter overflows, which takes a line of `2^31 - 1024` characters
or more. -/
def wish_readline_int (os : OS) (w : World) : Outcome (List Char) :=
  let bufsize : Int := WISH_RL_BUFSIZE
  let position : Int := 0
  if os.alloc w.trace (size_t bufsize) then
    wish_readline_loop_int os w w.stdin bufsize position []
  else
    .exit EXIT_FAILURE (eprintf w "wish: allocation error\n".toList)

/-- An operating system in which everything succeeds: used to run the model on examples. -/
def os0 : OS where
  alloc := fun _ _ => true
  chdir := fun _ _ path => some path
  fork := fun _ => .parent 1
  execvp := fun _ _ _ => true
  wait := fun _ _ => [.exited 0]
  waitFails := fun _ _ => false
  uninit := fun _ => .stopped 0
  stdinNext := fun _ input => input

/-- An empty world with the given standard input. -/
def world0 (input : List Char) : World :=
  { stdin := input, readError := false, cwd := ['/'], trace := [] }

/-! ## Lemmas on `strtok` and the specification of the tokenizer -/

theorem strtok_nil (delim : List Char) : strtok delim [] = none := rfl

theorem strtok_cons_delim (delim : List Char) (c : Char) (s : List Char) (hc : c ∈ delim) :
    strtok delim (c :: s) = strtok delim s := by
  simp [strtok, hc]

theorem strtok_cons_other (delim : List Char) (c : Char) (s : List Char) (hc : c ∉ delim) :
    strtok delim (c :: s) =
      some ((c :: s).takeWhile (fun c => !decide (c ∈ delim)),
            ((c :: s).dropWhile (fun c => !decide (c ∈ delim))).drop 1) := by
  simp [strtok, hc]

/-- One `strtok` call computes the first maximal run, and the later runs are those of the text
behind the saved position. -/
theorem maximalRuns_strtok (delim : List Char) (s : List Char) :
    maximalRuns delim s =
      match strtok delim s with
      | none => []
      | some (tok, saved) => tok :: maximalRuns delim saved := by
  induction s with
  | nil => simp [maximalRuns, strtok]
  | cons c s ih =>
    by_cases hc : c ∈ delim
    · rw [strtok_cons_delim delim c s hc, ← ih]
      simp [maximalRuns, hc]
    · rw [strtok_cons_other delim c s hc]
      have hsplit := List.takeWhile_append_dropWhile (fun c => !decide (c ∈ delim)) (c :: s)
      have htok : ∀ x ∈ (c :: s).takeWhile (fun c => !decide (c ∈ delim)),
          ¬ (fun c => decide (c ∈ delim)) x = true := by
        intro x hx
        have := List.mem_takeWhile_imp hx
        simpa using this
      have hne : (c :: s).takeWhile (fun c => !decide (c ∈ delim)) ≠ [] := by
        simp [List.takeWhile_cons, hc]
      cases hd : (c :: s).dropWhile (fun c => !decide (c ∈ delim)) with
      | nil =>
        rw [hd, List.append_nil] at hsplit
        rw [hsplit] at htok hne ⊢
        simp only [maximalRuns, List.drop_nil, List.splitOnP_nil]
        rw [List.splitOnP_eq_single _ _ htok]
        simp
      | cons d r =>
        have hdd : (fun c => decide (c ∈ delim)) d = true := by
          have h0 := List.head_dropWhile_not (fun c => !decide (c ∈ delim)) (c :: s)
            (by rw [hd]; simp)
          simp only [hd, List.head_cons] at h0
          simpa using h0
        rw [hd] at hsplit
        simp only [maximalRuns, List.drop_one, List.tail_cons]
        conv_lhs => rw [← hsplit]
        rw [List.splitOnP_first _ _ htok d hdd r]
        simp [hne]

theorem strtok_saved_length (delim : List Char) (s tok saved : List Char)
    (h : strtok delim s = some (tok, saved)) : saved.length < s.length := by
  unfold strtok at h
  have hle := (List.dropWhile_sublist (fun c => decide (c ∈ delim)) (l := s)).length_le
  cases hd : s.dropWhile (fun c => decide (c ∈ delim)) with
  | nil => simp [hd] at h
  | cons c r =>
    rw [hd] at h hle
    simp only [Option.some.injEq, Prod.mk.injEq] at h
    obtain ⟨-, rfl⟩ := h
    have h2 := (List.dropWhile_sublist (fun c => !decide (c ∈ delim)) (l := c :: r)).length_le
    simp only [List.length_drop, List.length_cons] at *
    omega

theorem strtok_token (delim : List Char) (s tok saved : List Char)
    (h : strtok delim s = some (tok, saved)) :
    tok ≠ [] ∧ (∀ c ∈ tok, c ∉ delim ∧ c ∈ s) ∧ ∀ c ∈ saved, c ∈ s := by
  unfold strtok at h
  have hsub := List.dropWhile_sublist (fun c => decide (c ∈ delim)) (l := s)
  cases hd : s.dropWhile (fun c => decide (c ∈ delim)) with
  | nil => simp [hd] at h
  | cons c r =>
    have hc : c ∉ delim := by
      have h0 := List.head_dropWhile_not (fun c => decide (c ∈ delim)) s (by rw [hd]; simp)
      simp only [hd, List.head_cons] at h0
      simpa using h0
    rw [hd] at h hsub
    simp only [Option.some.injEq, Prod.mk.injEq] at h
    obtain ⟨rfl, rfl⟩ := h
    refine ⟨by simp [List.takeWhile_cons, hc], ?_, ?_⟩
    · intro x hx
      have h1 := List.mem_takeWhile_imp hx
      exact ⟨by simpa using h1, hsub.subset ((List.takeWhile_sublist _).subset hx)⟩
    · intro x hx
      exact hsub.subset ((List.dropWhile_sublist _).subset (List.mem_of_mem_drop hx))

/-- Every maximal run is non-empty, holds no delimiter, and is made of characters of the text. -/
theorem maximalRuns_mem (delim : List Char) :
    ∀ (n : Nat) (s : List Char), s.length ≤ n →
      ∀ t ∈ maximalRuns delim s, t ≠ [] ∧ ∀ c ∈ t, c ∉ delim ∧ c ∈ s := by
  intro n
  induction n with
  | zero =>
    intro s hs t ht
    have : s = [] := List.length_eq_zero.mp (Nat.le_zero.mp hs)
    subst this
    simp [maximalRuns] at ht
  | succ n ih =>
    intro s hs t ht
    rw [maximalRuns_strtok] at ht
    cases hk : strtok delim s with
    | none => simp [hk] at ht
    | some ts =>
      obtain ⟨tok, saved⟩ := ts
      simp only [hk, List.mem_cons] at ht
      have hlen := strtok_saved_length delim s tok saved hk
      obtain ⟨hne, htok, hsaved⟩ := strtok_token delim s tok saved hk
      rcases ht with rfl | ht
      · exact ⟨hne, htok⟩
      · obtain ⟨h1, h2⟩ := ih saved (by omega) t ht
        exact ⟨h1, fun c hc => ⟨(h2 c hc).1, hsaved c (h2 c hc).2⟩⟩

theorem store_append {α : Type} (cap : Nat) (buf : List α) (x : α) (h : buf.length < cap) :
    store cap buf.length buf x = some (buf ++ [x]) := by
  simp [store, h]

/-- The loop of `wish_split_line`, started inside its block and with enough fuel, returns the
cells written so far, then the maximal runs of the text at the saved position, then NULL. -/
theorem wish_split_loop_eq (os : OS) (w : World) (halloc : ∀ t n, os.alloc t n = true) :
    ∀ (fuel : Nat) (s : List Char) (bufsize : Nat) (tokens : List (Option (List Char))),
      s.length ≤ fuel → tokens.length < bufsize →
      wish_split_loop os w fuel (strtok WISH_TOK_DELIM s) bufsize tokens.length tokens =
        .ret (tokens ++ (maximalRuns WISH_TOK_DELIM s).map some ++ [none]) w := by
  intro fuel
  induction fuel with
  | zero =>
    intro s bufsize tokens hs hb
    have : s = [] := List.length_eq_zero.mp (Nat.le_zero.mp hs)
    subst this
    simp [strtok_nil, wish_split_loop, store_append _ _ _ hb, maximalRuns]
  | succ fuel ih =>
    intro s bufsize tokens hs hb
    rw [maximalRuns_strtok]
    cases hk : strtok WISH_TOK_DELIM s with
    | none => simp [wish_split_loop, store_append _ _ _ hb]
    | some ts =>
      obtain ⟨tok, saved⟩ := ts
      have hlen := strtok_saved_length _ s tok saved hk
      have hl : (tokens ++ [some tok]).length = tokens.length + 1 := by simp
      have hnext : ∀ b, tokens.length + 1 < b →
          wish_split_loop os w fuel (strtok WISH_TOK_DELIM saved) b (tokens.length + 1)
              (tokens ++ [some tok]) =
            .ret (tokens ++ (tok :: maximalRuns WISH_TOK_DELIM saved).map some ++ [none]) w := by
        intro b hbb
        have := ih saved b (tokens ++ [some tok]) (by omega) (by omega)
        rw [hl] at this
        rw [this]
        simp
      simp only [wish_split_loop, store_append _ _ _ hb, halloc, if_true]
      split
      · exact hnext _ (by simp only [WISH_TOK_BUFSIZE]; omega)
      · exact hnext _ (by omega)

/-- The tokenizer, when its allocations succeed, returns the maximal runs of the line read as a
C string, followed by the NULL sentinel, and leaves the world as it is. -/
theorem wish_split_line_eq (os : OS) (w : World) (halloc : ∀ t n, os.alloc t n = true)
    (line : List Char) :
    wish_split_line os w line =
      .ret (nullTerminated (maximalRuns WISH_TOK_DELIM (cstr line))) w := by
  have hlen : (cstr line).length ≤ line.length :=
    (List.takeWhile_sublist (fun c => c != NUL) (l := line)).length_le
  have := wish_split_loop_eq os w halloc line.length (cstr line) WISH_TOK_BUFSIZE [] hlen
    (by simp [WISH_TOK_BUFSIZE])
  simp only [List.length_nil, List.nil_append] at this
  simp [wish_split_line, halloc, this, nullTerminated]

theorem cstr_of_not_mem (line : List Char) (h : NUL ∉ line) : cstr line = line := by
  unfold cstr
  rw [List.takeWhile_eq_self_iff]
  intro c hc
  simp only [bne_iff_ne, ne_eq]
  rintro rfl
  exact h hc

theorem cstr_not_mem (line : List Char) : NUL ∉ cstr line := by
  intro h
  have := List.mem_takeWhile_imp h
  simp at this

theorem maximalRuns_all_delim (delim : List Char) (s : List Char) (h : ∀ c ∈ s, c ∈ delim) :
    maximalRuns delim s = [] := by
  induction s with
  | nil => simp [maximalRuns]
  | cons c s ih =>
    have hc : c ∈ delim := h c (List.mem_cons_self _ _)
    have := ih (fun x hx => h x (List.mem_cons_of_mem _ hx))
    simp only [maximalRuns] at this ⊢
    simp [hc, this]

/-- Tokens without delimiters, joined by one delimiter, split back into themselves. -/
theorem maximalRuns_intercalate (delim : List Char) (d : Char) (hd : d ∈ delim) :
    ∀ toks : List (List Char), (∀ t ∈ toks, t ≠ [] ∧ ∀ c ∈ t, c ∉ delim) →
      maximalRuns delim ([d].intercalate toks) = toks := by
  intro toks
  induction toks with
  | nil => intro _; simp [maximalRuns, List.intercalate]
  | cons t ts ih =>
    intro h
    obtain ⟨hne, ht⟩ := h t (List.mem_cons_self _ _)
    have hts := ih (fun x hx => h x (List.mem_cons_of_mem _ hx))
    have htp : ∀ x ∈ t, ¬ (fun c => decide (c ∈ delim)) x = true := by
      intro x hx
      simpa using ht x hx
    cases ts with
    | nil =>
      simp only [List.intercalate, List.intersperse_single, List.flatten_cons, List.flatten_nil,
        List.append_nil, maximalRuns]
      rw [List.splitOnP_eq_single _ _ htp]
      simp [hne]
    | cons t2 ts =>
      have hj : [d].intercalate (t :: t2 :: ts) = t ++ d :: [d].intercalate (t2 :: ts) := by
        simp [List.intercalate]
      rw [hj]
      simp only [maximalRuns] at hts ⊢
      rw [List.splitOnP_first _ _ htp d (by simpa using hd)]
      simp [hne, hts]

theorem maximalRuns_cons_delim (delim : List Char) (c : Char) (s : List Char) (hc : c ∈ delim) :
    maximalRuns delim (c :: s) = maximalRuns delim s := by
  simp [maximalRuns, hc]

theorem maximalRuns_gap_append (delim : List Char) (gap s : List Char)
    (h : ∀ c ∈ gap, c ∈ delim) : maximalRuns delim (gap ++ s) = maximalRuns delim s := by
  induction gap with
  | nil => rfl
  | cons c gap ih =>
    rw [List.cons_append, maximalRuns_cons_delim _ _ _ (h c (List.mem_cons_self _ _))]
    exact ih (fun x hx => h x (List.mem_cons_of_mem _ hx))

theorem Runs.cons_delim (delim : List Char) (d : Char) (hd : d ∈ delim) (s : List Char)
    (toks : List (List Char)) (h : Runs delim s toks) : Runs delim (d :: s) toks := by
  cases h with
  | done _ hg =>
    exact Runs.done (d :: s) (by
      intro c hc
      rcases List.mem_cons.mp hc with rfl | hc
      · exact hd
      · exact hg c hc)
  | token gap t rest ts hg hne ht hr hrest =>
    have := Runs.token (d :: gap) t rest ts (by
      intro c hc
      rcases List.mem_cons.mp hc with rfl | hc
      · exact hd
      · exact hg c hc) hne ht hr hrest
    simpa using this

/-- The relation `Runs` holds of the maximal runs that `maximalRuns` computes. -/
theorem runs_maximalRuns (delim : List Char) :
    ∀ (n : Nat) (s : List Char), s.length ≤ n → Runs delim s (maximalRuns delim s) := by
  intro n
  induction n with
  | zero =>
    intro s hs
    have : s = [] := List.length_eq_zero.mp (Nat.le_zero.mp hs)
    subst this
    exact Runs.done [] (by simp)
  | succ n ih =>
    intro s hs
    cases s with
    | nil => exact Runs.done [] (by simp)
    | cons c s =>
      by_cases hc : c ∈ delim
      · rw [maximalRuns_cons_delim _ _ _ hc]
        exact Runs.cons_delim delim c hc s _ (ih s (by simpa using hs))
      · rw [maximalRuns_strtok, strtok_cons_other delim c s hc]
        have hsplit := List.takeWhile_append_dropWhile (fun c => !decide (c ∈ delim)) (c :: s)
        have htok : ∀ x ∈ (c :: s).takeWhile (fun c => !decide (c ∈ delim)), x ∉ delim := by
          intro x hx
          have := List.mem_takeWhile_imp hx
          simpa using this
        have hne : (c :: s).takeWhile (fun c => !decide (c ∈ delim)) ≠ [] := by
          simp [List.takeWhile_cons, hc]
        have hlen := (List.dropWhile_sublist (fun c => !decide (c ∈ delim))
          (l := c :: s)).length_le
        have hlen2 : ((c :: s).dropWhile (fun c => !decide (c ∈ delim))).length ≤ s.length := by
          simp only [List.dropWhile_cons, hc, decide_False, Bool.not_false, if_true]
          exact (List.dropWhile_sublist _).length_le
        cases hd : (c :: s).dropWhile (fun c => !decide (c ∈ delim)) with
        | nil =>
          have := Runs.token [] _ [] [] (by simp) hne htok (by simp) (Runs.done [] (by simp))
          rw [hd, List.append_nil] at hsplit
          simpa [hsplit, maximalRuns] using this
        | cons d r =>
          have hdd : d ∈ delim := by
            have h0 := List.head_dropWhile_not (fun c => !decide (c ∈ delim)) (c :: s)
              (by rw [hd]; simp)
            simp only [hd, List.head_cons] at h0
            simpa using h0
          have hr : Runs delim (d :: r) (maximalRuns delim r) :=
            Runs.cons_delim delim d hdd r _ (ih r (by
              rw [hd] at hlen2
              simp only [List.length_cons] at hlen2 hs
              omega))
          have := Runs.token [] _ (d :: r) _ (by simp) hne htok
            (by intro x hx; simp at hx; subst hx; exact hdd) hr
          rw [hd] at hsplit
          simp only [List.nil_append, hsplit] at this
          simpa using this

/-- The relation `Runs` determines the token list: it is the one `maximalRuns` computes. -/
theorem runs_unique (delim : List Char) (s : List Char) (toks : List (List Char))
    (h : Runs delim s toks) : toks = maximalRuns delim s := by
  induction h with
  | done gap hg => exact (maximalRuns_all_delim delim gap hg).symm
  | token gap t rest ts hg hne ht hr _ ih =>
    rw [List.append_assoc, maximalRuns_gap_append _ _ _ hg]
    have htp : ∀ x ∈ t, ¬ (fun c => decide (c ∈ delim)) x = true := by
      intro x hx
      simpa using ht x hx
    cases rest with
    | nil =>
      simp only [List.append_nil, maximalRuns] at ih ⊢
      rw [List.splitOnP_eq_single _ _ htp]
      simp [hne, ih]
    | cons d r =>
      have hd : d ∈ delim := hr d rfl
      rw [maximalRuns_cons_delim _ _ _ hd] at ih
      simp only [maximalRuns] at ih ⊢
      rw [List.splitOnP_first _ _ htp d (by simpa using hd)]
      simp [hne, ih]

theorem not_mem_intercalate (x d : Char) (hx : x ≠ d) :
    ∀ toks : List (List Char), (∀ t ∈ toks, x ∉ t) → x ∉ [d].intercalate toks := by
  intro toks
  induction toks with
  | nil => intro _; simp [List.intercalate]
  | cons t ts ih =>
    intro h
    have ht := h t (List.mem_cons_self _ _)
    have hts := ih (fun y hy => h y (List.mem_cons_of_mem _ hy))
    cases ts with
    | nil => simpa [List.intercalate] using ht
    | cons t2 ts =>
      have hj : [d].intercalate (t :: t2 :: ts) = t ++ d :: [d].intercalate (t2 :: ts) := by
        simp [List.intercalate]
      rw [hj]
      simp only [List.mem_append, List.mem_cons, not_or]
      exact ⟨ht, hx, hts⟩

/-! ## The tokenizer: claims C1, C2, C3 -/

/-- C1: for every NUL-free line, when its allocations succeed, `wish_split_line` returns exactly
the maximal non-empty runs of characters outside the delimiter set (space, tab, carriage return,
newline, bell), from left to right, followed by the NULL sentinel. The runs are those of the
relation `Runs`, which determines them; no returned token is empty and none holds a delimiter. -/
theorem wish_split_line_tokens (os : OS) (w : World) (line : List Char)
    (halloc : ∀ t n, os.alloc t n = true) (hnul : NUL ∉ line) :
    wish_split_line os w line = .ret (nullTerminated (maximalRuns WISH_TOK_DELIM line)) w ∧
    Runs WISH_TOK_DELIM line (maximalRuns WISH_TOK_DELIM line) ∧
    (∀ toks, Runs WISH_TOK_DELIM line toks → toks = maximalRuns WISH_TOK_DELIM line) ∧
    ∀ t ∈ maximalRuns WISH_TOK_DELIM line, t ≠ [] ∧ ∀ c ∈ t, c ∉ WISH_TOK_DELIM := by
  refine ⟨?_, runs_maximalRuns _ _ line le_rfl, runs_unique _ line, ?_⟩
  · have := wish_split_line_eq os w halloc line
    rwa [cstr_of_not_mem line hnul] at this
  · intro t ht
    obtain ⟨h1, h2⟩ := maximalRuns_mem WISH_TOK_DELIM _ line le_rfl t ht
    exact ⟨h1, fun c hc => (h2 c hc).1⟩

theorem wish_split_line_tokens_witness :
    (∀ t n, os0.alloc t n = true) ∧ NUL ∉ " ls  -l\tfoo \r\n".toList ∧
    wish_split_line os0 (world0 []) " ls  -l\tfoo \r\n".toList =
      .ret [some "ls".toList, some "-l".toList, some "foo".toList, none] (world0 []) :=
  ⟨fun _ _ => rfl, by decide,
    (wish_split_line_tokens os0 (world0 []) " ls  -l\tfoo \r\n".toList (fun _ _ => rfl)
      (by decide)).1.trans (by decide)⟩

/-- C2: for every line made up only of delimiter characters, the empty line included, when its
allocations succeed, `wish_split_line` returns the zero-length token sequence: the first element
of the array is the NULL sentinel. -/
theorem wish_split_line_only_delimiters (os : OS) (w : World) (line : List Char)
    (halloc : ∀ t n, os.alloc t n = true) (hdelim : ∀ c ∈ line, c ∈ WISH_TOK_DELIM) :
    wish_split_line os w line = .ret (nullTerminated []) w ∧
    argAt (nullTerminated []) 0 = none := by
  refine ⟨?_, rfl⟩
  rw [wish_split_line_eq os w halloc line, maximalRuns_all_delim]
  intro c hc
  exact hdelim c ((List.takeWhile_sublist _).subset hc)

theorem wish_split_line_only_delimiters_witness :
    (∀ t n, os0.alloc t n = true) ∧ (∀ c ∈ " \t \r\n".toList, c ∈ WISH_TOK_DELIM) ∧
    wish_split_line os0 (world0 []) " \t \r\n".toList = .ret (nullTerminated []) (world0 []) ∧
    argAt (nullTerminated []) 0 = none :=
  ⟨fun _ _ => rfl, by decide,
    wish_split_line_only_delimiters os0 (world0 []) " \t \r\n".toList (fun _ _ => rfl)
      (by decide)⟩

/-- C3: for every input line, when the allocations succeed, `wish_split_line` returns a token
sequence, and joining its tokens with a single space between consecutive tokens and running
`wish_split_line` on the joined string returns the same token sequence. -/
theorem wish_split_line_rejoin (os : OS) (w : World) (line : List Char)
    (halloc : ∀ t n, os.alloc t n = true) :
    ∃ toks : List (List Char),
      wish_split_line os w line = .ret (nullTerminated toks) w ∧
      wish_split_line os w ([' '].intercalate toks) = .ret (nullTerminated toks) w := by
  refine ⟨maximalRuns WISH_TOK_DELIM (cstr line), wish_split_line_eq os w halloc line, ?_⟩
  have hmem := maximalRuns_mem WISH_TOK_DELIM _ (cstr line) le_rfl
  have hnul : NUL ∉ [' '].intercalate (maximalRuns WISH_TOK_DELIM (cstr line)) := by
    apply not_mem_intercalate NUL ' ' (by decide)
    intro t ht hc
    exact cstr_not_mem line ((hmem t ht).2 NUL hc).2
  rw [wish_split_line_eq os w halloc, cstr_of_not_mem _ hnul,
    maximalRuns_intercalate WISH_TOK_DELIM ' ' (by decide)]
  intro t ht
  exact ⟨(hmem t ht).1, fun c hc => ((hmem t ht).2 c hc).1⟩

theorem wish_split_line_rejoin_witness :
    (∀ t n, os0.alloc t n = true) ∧
    ∃ toks : List (List Char),
      wish_split_line os0 (world0 []) "\tcd   /tmp \n".toList = .ret (nullTerminated toks) (world0 []) ∧
      wish_split_line os0 (world0 []) ([' '].intercalate toks) =
        .ret (nullTerminated toks) (world0 []) :=
  ⟨fun _ _ => rfl,
    wish_split_line_rejoin os0 (world0 []) "\tcd   /tmp \n".toList (fun _ _ => rfl)⟩

/-! ## The dispatcher: lemmas -/

/-- The loop of `wish_execute` over the three builtins, unrolled. -/
theorem wish_execute_cons (os : OS) (w : World) (t : List Char) (ts : List (List Char)) :
    wish_execute os (nullTerminated (t :: ts)) w =
      if t = "cd".toList then wish_command os (nullTerminated (t :: ts)) w
      else if t = "help".toList then wish_help_command os (nullTerminated (t :: ts)) w
      else if t = "exit".toList then wish_exit_command os (nullTerminated (t :: ts)) w
      else wish_launch os (nullTerminated (t :: ts)) w := by
  simp [wish_execute, argAt, nullTerminated, wish_execute_loop, wish_num_bull, builtin_str,
    builtin_func]

theorem wish_execute_null (os : OS) (w : World) (rest : List (Option (List Char))) :
    wish_execute os (none :: rest) w = .ret 1 w := by
  simp [wish_execute, argAt]

theorem wish_command_ret (os : OS) (args : List (Option (List Char))) (w : World) :
    ∃ w', wish_command os args w = .ret 1 w' ∧ w'.stdin = w.stdin := by
  unfold wish_command
  split
  · exact ⟨_, rfl, rfl⟩
  · split
    · exact ⟨_, rfl, rfl⟩
    · exact ⟨_, rfl, rfl⟩

theorem wish_help_loop_stdin : ∀ (n i : Nat) (w : World),
    (wish_help_loop n i w).stdin = w.stdin := by
  intro n
  induction n with
  | zero => intro i w; rfl
  | succ n ih => intro i w; simp [wish_help_loop, ih, printf]

theorem wish_help_command_ret (os : OS) (args : List (Option (List Char))) (w : World) :
    ∃ w', wish_help_command os args w = .ret 1 w' ∧ w'.stdin = w.stdin := by
  refine ⟨_, rfl, ?_⟩
  simp [wish_help_loop_stdin, printf]

/-- The wait loop returns or blocks; it leaves standard input as it is. -/
theorem wish_wait_loop_cases (pid : Nat) (fails : Bool) :
    ∀ (sts : List WaitStatus) (status : WaitStatus) (w : World),
      (∃ w', wish_wait_loop pid fails status sts w = .ret () w' ∧ w'.stdin = w.stdin) ∨
      (∃ w', wish_wait_loop pid fails status sts w = .blocked w') := by
  intro sts
  induction sts with
  | nil =>
    intro status w
    simp only [wish_wait_loop]
    split
    · split
      · exact Or.inr ⟨_, rfl⟩
      · exact Or.inl ⟨_, rfl, rfl⟩
    · exact Or.inr ⟨w, rfl⟩
  | cons st sts ih =>
    intro status w
    simp only [wish_wait_loop]
    split
    · exact ih _ _
    · exact Or.inl ⟨_, rfl, rfl⟩

/-- The wait loop returns when one of the statuses is an exit or a termination by signal. -/
theorem wish_wait_loop_returns (pid : Nat) (fails : Bool) :
    ∀ (sts : List WaitStatus) (status : WaitStatus) (w : World),
      (∃ st ∈ sts, WIFEXITED st = true ∨ WIFSIGNALED st = true) →
      ∃ w', wish_wait_loop pid fails status sts w = .ret () w' := by
  intro sts
  induction sts with
  | nil => intro status w h; simp at h
  | cons st sts ih =>
    intro status w h
    simp only [wish_wait_loop]
    split
    · rename_i hst
      apply ih
      obtain ⟨x, hx, hterm⟩ := h
      rcases List.mem_cons.mp hx with rfl | hx
      · simp only [Bool.and_eq_true, Bool.not_eq_true'] at hst
        rcases hterm with h1 | h1 <;> simp [h1] at hst
      · exact ⟨x, hx, hterm⟩
    · exact ⟨_, rfl⟩

/-- Whenever `wish_launch` returns, it returns 1 and has left standard input as it is. -/
theorem wish_launch_ret (os : OS) (args : List (Option (List Char))) (w : World) (v : Int)
    (w' : World) (h : wish_launch os args w = .ret v w') : v = 1 ∧ w'.stdin = w.stdin := by
  unfold wish_launch at h
  cases hf : os.fork w.trace with
  | child =>
    simp only [hf] at h
    split at h <;> simp at h
  | failed =>
    simp only [hf, Outcome.ret.injEq] at h
    obtain ⟨rfl, rfl⟩ := h
    exact ⟨rfl, rfl⟩
  | parent pid =>
    simp only [hf] at h
    rcases wish_wait_loop_cases pid
      (os.waitFails (w.trace ++ [Event.fork (.parent pid)]) pid)
      (os.wait (w.trace ++ [Event.fork (.parent pid)]) pid)
      (os.uninit (w.trace ++ [Event.fork (.parent pid)]))
      { w with trace := w.trace ++ [Event.fork (.parent pid)] } with ⟨w2, h2, h3⟩ | ⟨w2, h2⟩
    · rw [h2] at h
      simp only [Outcome.bind, Outcome.ret.injEq] at h
      obtain ⟨rfl, rfl⟩ := h
      exact ⟨rfl, h3⟩
    · rw [h2] at h
      simp [Outcome.bind] at h

/-- In the parent, `wish_launch` returns 1 when `fork` failed or the child ends. -/
theorem wish_launch_returns (os : OS) (args : List (Option (List Char))) (w : World)
    (h : os.fork w.trace = .failed ∨
      ∃ pid, os.fork w.trace = .parent pid ∧
        ∃ st ∈ os.wait (w.trace ++ [Event.fork (.parent pid)]) pid,
          WIFEXITED st = true ∨ WIFSIGNALED st = true) :
    ∃ w', wish_launch os args w = .ret 1 w' := by
  unfold wish_launch
  rcases h with hf | ⟨pid, hf, hst⟩
  · simp only [hf]
    exact ⟨_, rfl⟩
  · simp only [hf]
    obtain ⟨w2, h2⟩ := wish_wait_loop_returns pid
      (os.waitFails (w.trace ++ [Event.fork (.parent pid)]) pid) _
      (os.uninit (w.trace ++ [Event.fork (.parent pid)]))
      { w with trace := w.trace ++ [Event.fork (.parent pid)] } hst
    rw [h2]
    exact ⟨w2, rfl⟩

/-- Whenever `wish_execute` returns on a line whose first token is not "exit", it returns 1;
standard input is left as it is in every case. -/
theorem wish_execute_ret (os : OS) (toks : List (List Char)) (w : World) (v : Int) (w' : World)
    (h : wish_execute os (nullTerminated toks) w = .ret v w') :
    (toks.head? ≠ some "exit".toList → v = 1) ∧ w'.stdin = w.stdin := by
  cases toks with
  | nil =>
    have h0 : wish_execute os (nullTerminated []) w = .ret 1 w := wish_execute_null os w []
    rw [h0] at h
    simp only [Outcome.ret.injEq] at h
    obtain ⟨rfl, rfl⟩ := h
    exact ⟨fun _ => rfl, rfl⟩
  | cons t ts =>
    rw [wish_execute_cons] at h
    split at h
    · obtain ⟨w2, h2, h3⟩ := wish_command_ret os (nullTerminated (t :: ts)) w
      rw [h2] at h
      simp only [Outcome.ret.injEq] at h
      obtain ⟨rfl, rfl⟩ := h
      exact ⟨fun _ => rfl, h3⟩
    · split at h
      · obtain ⟨w2, h2, h3⟩ := wish_help_command_ret os (nullTerminated (t :: ts)) w
        rw [h2] at h
        simp only [Outcome.ret.injEq] at h
        obtain ⟨rfl, rfl⟩ := h
        exact ⟨fun _ => rfl, h3⟩
      · split at h
        · rename_i hexit
          simp only [wish_exit_command, Outcome.ret.injEq] at h
          obtain ⟨rfl, rfl⟩ := h
          exact ⟨fun hne => absurd (by rw [hexit]; rfl) hne, rfl⟩
        · obtain ⟨h1, h2⟩ := wish_launch_ret os _ w v w' h
          exact ⟨fun _ => h1, h2⟩

/-! ## The dispatcher: claims C4, C5, C6, C7 -/

/-- C4: for every non-empty token sequence `t :: ts`, `wish_execute` is the call of exactly one
handler on the full token sequence and ends as that handler does: the builtin at index `i` when
the first token equals the builtin name at index `i` byte for byte, and `wish_launch` when the
first token is none of the three names, as for "CD", "Exit", "exit1" and "hel". The names `cd`,
`help`, `exit` are distinct, so the index is unique. -/
theorem wish_execute_dispatch (os : OS) (w : World) (t : List Char) (ts : List (List Char)) :
    (∀ i name handler, builtin_str.get? i = some name → builtin_func.get? i = some handler →
      t = name →
      wish_execute os (nullTerminated (t :: ts)) w = handler os (nullTerminated (t :: ts)) w) ∧
    (t ∉ builtin_str →
      wish_execute os (nullTerminated (t :: ts)) w =
        wish_launch os (nullTerminated (t :: ts)) w) ∧
    (t ∈ ["CD".toList, "Exit".toList, "exit1".toList, "hel".toList] →
      wish_execute os (nullTerminated (t :: ts)) w =
        wish_launch os (nullTerminated (t :: ts)) w) ∧
    builtin_str = ["cd".toList, "help".toList, "exit".toList] ∧ builtin_str.Nodup := by
  have hlaunch : t ∉ builtin_str →
      wish_execute os (nullTerminated (t :: ts)) w =
        wish_launch os (nullTerminated (t :: ts)) w := by
    intro ht
    simp only [builtin_str, List.mem_cons, List.mem_singleton, List.not_mem_nil, or_false,
      not_or] at ht
    rw [wish_execute_cons, if_neg ht.1, if_neg ht.2.1, if_neg ht.2.2]
  refine ⟨?_, hlaunch, ?_, rfl, by decide⟩
  · intro i name handler hname hhandler ht
    subst ht
    rw [wish_execute_cons]
    match i with
    | 0 =>
      simp only [builtin_str, builtin_func, List.get?_cons_zero, Option.some.injEq] at hname hhandler
      subst hname hhandler
      simp
    | 1 =>
      simp only [builtin_str, builtin_func, List.get?_cons_succ, List.get?_cons_zero,
        Option.some.injEq] at hname hhandler
      subst hname hhandler
      simp
    | 2 =>
      simp only [builtin_str, builtin_func, List.get?_cons_succ, List.get?_cons_zero,
        Option.some.injEq] at hname hhandler
      subst hname hhandler
      simp
    | n + 3 => simp [builtin_str] at hname
  · intro ht
    apply hlaunch
    simp only [List.mem_cons, List.mem_singleton, List.not_mem_nil, or_false] at ht
    rcases ht with rfl | rfl | rfl | rfl <;> decide

theorem wish_execute_dispatch_witness :
    wish_execute os0 (nullTerminated ["help".toList, "me".toList]) (world0 []) =
      wish_help_command os0 (nullTerminated ["help".toList, "me".toList]) (world0 []) ∧
    wish_execute os0 (nullTerminated ["hel".toList, "me".toList]) (world0 []) =
      wish_launch os0 (nullTerminated ["hel".toList, "me".toList]) (world0 []) :=
  ⟨(wish_execute_dispatch os0 (world0 []) "help".toList ["me".toList]).1 1 "help".toList
      wish_help_command rfl rfl rfl,
    (wish_execute_dispatch os0 (world0 []) "hel".toList ["me".toList]).2.1 (by decide)⟩

/-- C5: for every token sequence whose first token is exactly "exit", whatever follows it,
`wish_execute` returns the termination signal 0 and leaves the world as it is: no event is added
to the trace (no child process, no write), and the working directory is the same. -/
theorem wish_execute_exit (os : OS) (w : World) (ts : List (List Char)) :
    wish_execute os (nullTerminated ("exit".toList :: ts)) w = .ret 0 w := by
  rw [wish_execute_cons]
  simp [wish_exit_command]

/-- C6: on a token sequence whose first token is absent or is not exactly "exit", `wish_execute`
never returns anything but the continue signal 1, and it does return 1 for the empty sequence,
for `cd` (whatever `chdir` answers), for `help`, and for an external launch in the parent when
`fork` failed or the child ends by exit (an exec failure in the child is such an exit) or by
signal. Hence `wish_execute` returns 0 if and only if the first token is exactly "exit". -/
theorem wish_execute_continue (os : OS) (w : World) (toks : List (List Char)) :
    (toks.head? ≠ some "exit".toList →
      (∀ v w', wish_execute os (nullTerminated toks) w = .ret v w' → v = 1) ∧
      (toks = [] ∨ toks.head? = some "cd".toList ∨ toks.head? = some "help".toList ∨
          os.fork w.trace = .failed ∨
          (∃ pid, os.fork w.trace = .parent pid ∧
            ∃ st ∈ os.wait (w.trace ++ [Event.fork (.parent pid)]) pid,
              WIFEXITED st = true ∨ WIFSIGNALED st = true) →
        ∃ w', wish_execute os (nullTerminated toks) w = .ret 1 w')) ∧
    ((∃ w', wish_execute os (nullTerminated toks) w = .ret 0 w') ↔
      toks.head? = some "exit".toList) := by
  have hone : toks.head? ≠ some "exit".toList →
      ∀ v w', wish_execute os (nullTerminated toks) w = .ret v w' → v = 1 :=
    fun hne v w' h => (wish_execute_ret os toks w v w' h).1 hne
  refine ⟨fun hne => ⟨hone hne, ?_⟩, ?_, ?_⟩
  · intro hcase
    cases toks with
    | nil => exact ⟨w, wish_execute_null os w []⟩
    | cons t ts =>
      have hexit : t ≠ "exit".toList := fun h => hne (by rw [h]; rfl)
      rw [wish_execute_cons]
      by_cases hcd : t = "cd".toList
      · rw [if_pos hcd]
        obtain ⟨w2, h2, -⟩ := wish_command_ret os (nullTerminated (t :: ts)) w
        exact ⟨w2, h2⟩
      · rw [if_neg hcd]
        by_cases hhelp : t = "help".toList
        · rw [if_pos hhelp]
          obtain ⟨w2, h2, -⟩ := wish_help_command_ret os (nullTerminated (t :: ts)) w
          exact ⟨w2, h2⟩
        · rw [if_neg hhelp, if_neg hexit]
          apply wish_launch_returns
          rcases hcase with h | h | h | h | h
          · simp at h
          · exact absurd (by simpa using h) hcd
          · exact absurd (by simpa using h) hhelp
          · exact Or.inl h
          · exact Or.inr h
  · rintro ⟨w', h⟩
    by_contra hne
    have := hone hne 0 w' h
    simp at this
  · intro h
    cases toks with
    | nil => simp at h
    | cons t ts =>
      simp only [List.head?_cons, Option.some.injEq] at h
      subst h
      refine ⟨w, ?_⟩
      rw [wish_execute_cons]
      simp [wish_exit_command]

theorem wish_execute_continue_witness :
    ["ls".toList, "-l".toList].head? ≠ some "exit".toList ∧
    (∃ st ∈ os0.wait ((world0 []).trace ++ [Event.fork (.parent 1)]) 1,
      WIFEXITED st = true ∨ WIFSIGNALED st = true) ∧
    ∃ w', wish_execute os0 (nullTerminated ["ls".toList, "-l".toList]) (world0 []) = .ret 1 w' :=
  ⟨by decide, ⟨.exited 0, by simp [os0], Or.inl rfl⟩,
    ((wish_execute_continue os0 (world0 []) ["ls".toList, "-l".toList]).1 (by decide)).2
      (Or.inr (Or.inr (Or.inr (Or.inr
        ⟨1, rfl, .exited 0, by simp [os0], Or.inl rfl⟩))))⟩

/-- C7: for the empty token sequence, whose first element is the NULL sentinel, `wish_execute`
returns continue (1) and leaves the world as it is: no handler runs, no event is added to the
trace (no child process, no write) and the working directory is the same. -/
theorem wish_execute_empty (os : OS) (w : World) (rest : List (Option (List Char))) :
    wish_execute os (nullTerminated []) w = .ret 1 w ∧
    wish_execute os (none :: rest) w = .ret 1 w :=
  ⟨wish_execute_null os w [], wish_execute_null os w rest⟩

/-! ## The line reader: lemmas and claim C10 -/

/-- The loop of `wish_readline`, started inside its block on an input whose first newline comes
after `line`, returns the buffer with `line` and the terminating NUL appended. -/
theorem wish_readline_loop_line (os : OS) (w : World) (halloc : ∀ t n, os.alloc t n = true)
    (rest : List Char) :
    ∀ (line : List Char) (bufsize : Nat) (buffer : List Char),
      '\n' ∉ line → buffer.length < bufsize →
      wish_readline_loop os w (line ++ '\n' :: rest) bufsize buffer.length buffer =
        .ret (buffer ++ line ++ [NUL]) { w with stdin := rest } := by
  intro line
  induction line with
  | nil =>
    intro bufsize buffer _ hb
    simp [wish_readline_loop, store_append _ _ _ hb]
  | cons c line ih =>
    intro bufsize buffer hnl hb
    have hc : c ≠ '\n' := fun h => hnl (by simp [h])
    have hline : '\n' ∉ line := fun h => hnl (List.mem_cons_of_mem _ h)
    have hl : (buffer ++ [c]).length = buffer.length + 1 := by simp
    have hnext : ∀ b, buffer.length + 1 < b →
        wish_readline_loop os w (line ++ '\n' :: rest) b (buffer.length + 1) (buffer ++ [c]) =
          .ret (buffer ++ c :: line ++ [NUL]) { w with stdin := rest } := by
      intro b hbb
      have := ih b (buffer ++ [c]) hline (by omega)
      rw [hl] at this
      rw [this]
      simp
    simp only [List.cons_append, wish_readline_loop, if_neg hc, store_append _ _ _ hb, halloc,
      if_true]
    split
    · exact hnext _ (by simp only [WISH_RL_BUFSIZE]; omega)
    · exact hnext _ (by omega)

/-- The loop of `wish_readline` on an input without newline ends the process with status
`EXIT_SUCCESS`, all the input consumed. -/
theorem wish_readline_loop_eof (os : OS) (w : World) (halloc : ∀ t n, os.alloc t n = true) :
    ∀ (input : List Char) (bufsize : Nat) (buffer : List Char),
      '\n' ∉ input → buffer.length < bufsize →
      wish_readline_loop os w input bufsize buffer.length buffer =
        .exit EXIT_SUCCESS { w with stdin := [] } := by
  intro input
  induction input with
  | nil => intro bufsize buffer _ _; rfl
  | cons c input ih =>
    intro bufsize buffer hnl hb
    have hc : c ≠ '\n' := fun h => hnl (by simp [h])
    have hin : '\n' ∉ input := fun h => hnl (List.mem_cons_of_mem _ h)
    have hl : (buffer ++ [c]).length = buffer.length + 1 := by simp
    have hnext : ∀ b, buffer.length + 1 < b →
        wish_readline_loop os w input b (buffer.length + 1) (buffer ++ [c]) =
          .exit EXIT_SUCCESS { w with stdin := [] } := by
      intro b hbb
      have := ih b (buffer ++ [c]) hin (by omega)
      rwa [hl] at this
    simp only [wish_readline_loop, if_neg hc, store_append _ _ _ hb, halloc, if_true]
    split
    · exact hnext _ (by simp only [WISH_RL_BUFSIZE]; omega)
    · exact hnext _ (by omega)

theorem wish_readline_eq (os : OS) (w : World) (halloc : ∀ t n, os.alloc t n = true)
    (line rest : List Char) (hnl : '\n' ∉ line) (hin : w.stdin = line ++ '\n' :: rest) :
    wish_readline os w = .ret (line ++ [NUL]) { w with stdin := rest } := by
  have := wish_readline_loop_line os w halloc rest line WISH_RL_BUFSIZE [] hnl
    (by simp [WISH_RL_BUFSIZE])
  simp only [List.length_nil, List.nil_append] at this
  simp [wish_readline, halloc, hin, this]

theorem wish_readline_exit (os : OS) (w : World) (halloc : ∀ t n, os.alloc t n = true)
    (hnl : '\n' ∉ w.stdin) :
    wish_readline os w = .exit EXIT_SUCCESS { w with stdin := [] } := by
  have := wish_readline_loop_eof os w halloc w.stdin WISH_RL_BUFSIZE [] hnl
    (by simp [WISH_RL_BUFSIZE])
  simp only [List.length_nil] at this
  simp [wish_readline, halloc, this]

/-- C10: when the unread input holds no newline, so that its end is reached before a newline is
read, and the allocations succeed, `wish_readline` ends the whole process with the success status
0 and returns no line. The characters of an unterminated last line are consumed and dropped: the
pass of the main loop, and `main`, end with that exit, the prompt being the only event added, so
nothing was tokenized or dispatched. -/
theorem wish_readline_end_of_input (os : OS) (w : World)
    (halloc : ∀ t n, os.alloc t n = true) (hnl : '\n' ∉ w.stdin) :
    wish_readline os w = .exit 0 { w with stdin := [] } ∧
    wish_cycle os w = .exit 0 { printf w "wish> ".toList with stdin := [] } ∧
    main os w = .exit 0 { printf w "wish> ".toList with stdin := [] } := by
  have hcycle : wish_cycle os w = .exit 0 { printf w "wish> ".toList with stdin := [] } := by
    unfold wish_cycle
    rw [wish_readline_exit os (printf w "wish> ".toList) halloc hnl]
    rfl
  refine ⟨wish_readline_exit os w halloc hnl, hcycle, ?_⟩
  simp [main, wish_loop, wish_loop_go, hcycle, Outcome.bind]

theorem wish_readline_end_of_input_witness :
    (∀ t n, os0.alloc t n = true) ∧ '\n' ∉ (world0 "ls -l".toList).stdin ∧
    wish_readline os0 (world0 "ls -l".toList) = .exit 0 (world0 []) ∧
    wish_cycle os0 (world0 "ls -l".toList) =
      .exit 0 { printf (world0 "ls -l".toList) "wish> ".toList with stdin := [] } ∧
    main os0 (world0 "ls -l".toList) =
      .exit 0 { printf (world0 "ls -l".toList) "wish> ".toList with stdin := [] } :=
  ⟨fun _ _ => rfl, by decide,
    wish_readline_end_of_input os0 (world0 "ls -l".toList) (fun _ _ => rfl) (by decide)⟩

/-! ## The main loop: lemmas and claim C8 -/

theorem cstr_append_nul (line : List Char) : cstr (line ++ [NUL]) = cstr line := by
  induction line with
  | nil => rfl
  | cons c line ih =>
    simp only [cstr, List.cons_append, List.takeWhile_cons] at ih ⊢
    split
    · rw [ih]
    · rfl

/-- One pass of the loop body on an input that starts with `line` and a newline is the dispatch
of that line as `dispatchLine` words it. -/
theorem wish_cycle_line (os : OS) (w : World) (halloc : ∀ t n, os.alloc t n = true)
    (line rest : List Char) (hnl : '\n' ∉ line) (hin : w.stdin = line ++ '\n' :: rest) :
    wish_cycle os w = dispatchLine os line w := by
  have hread := wish_readline_eq os (printf w "wish> ".toList) halloc line rest hnl hin
  have hdrop : w.stdin.drop (line.length + 1) = rest := by
    rw [hin, List.drop_append_eq_append_drop]
    simp
  unfold wish_cycle dispatchLine
  rw [hread, hdrop]
  simp only [Outcome.bind]
  rw [wish_split_line_eq os _ halloc, cstr_append_nul]

/-- C11, which the default build does not meet: when the read of standard input fails before a
newline is read, `wish_readline` of the build without `WISH_USE_STD_GETLINE` ends the process
with the success status 0 and adds nothing to the trace, so nothing goes to the error stream:
`getchar()` answers `EOF` for a read error as for the end of the input, and the code does not
tell them apart. The build with `WISH_USE_STD_GETLINE` does what the claim says when the read
fails with nothing left to read: it calls `perror` and ends the process with the status
`EXIT_FAILURE`, which is 1. -/
theorem wish_readline_read_error (os : OS) (w : World) (halloc : ∀ t n, os.alloc t n = true)
    (herr : w.readError = true) (hnl : '\n' ∉ w.stdin) :
    wish_readline os w = .exit 0 { w with stdin := [] } ∧
    (w.stdin = [] →
      wish_readline_getline w =
        .exit 1 { w with
          stdin := [], trace := w.trace ++ [Event.perror "wish: getline\n".toList] }) := by
  refine ⟨wish_readline_exit os w halloc hnl, ?_⟩
  intro hempty
  simp only [wish_readline_getline, getline, herr, hempty]
  rfl

theorem wish_readline_read_error_witness :
    (∀ t n, os0.alloc t n = true) ∧ ({ world0 "ls".toList with readError := true }).readError = true ∧
    '\n' ∉ ({ world0 "ls".toList with readError := true }).stdin ∧
    wish_readline os0 { world0 "ls".toList with readError := true } =
      .exit 0 { stdin := [], readError := true, cwd := ['/'], trace := [] } ∧
    wish_readline_getline { world0 [] with readError := true } =
      .exit 1 { stdin := [], readError := true, cwd := ['/'],
                trace := [Event.perror "wish: getline\n".toList] } :=
  ⟨fun _ _ => rfl, rfl, by decide,
    (wish_readline_read_error os0 { world0 "ls".toList with readError := true } (fun _ _ => rfl)
      rfl (by decide)).1,
    (wish_readline_read_error os0 { world0 [] with readError := true } (fun _ _ => rfl)
      rfl (by decide)).2 rfl⟩

/-! ## The builtins `cd` and `help`: claims C12, C13, C14 -/

/-- C12: for the token sequence that is "cd" alone, `wish_command` writes the usage error to the
error stream and returns continue (1): that write is the only event added to the trace, so
`chdir` is not called, and the working directory is the same. `wish_execute` on that sequence
does the same. -/
theorem wish_command_no_argument (os : OS) (w : World) :
    wish_command os (nullTerminated ["cd".toList]) w =
      .ret 1 { w with
        trace := w.trace ++ [Event.stderr "wish: expected argument to \"cd\"\n".toList] } ∧
    wish_execute os (nullTerminated ["cd".toList]) w =
      wish_command os (nullTerminated ["cd".toList]) w := by
  refine ⟨rfl, ?_⟩
  rw [wish_execute_cons]
  simp

/-- C13: for every token sequence "cd", `path`, and any further tokens, `wish_command` calls
`chdir` once, with `path`, whatever the further tokens are, and returns continue (1). When the
call succeeds the working directory is the one the call gives and the call is the only event
added to the trace, so nothing is written; when it fails the working directory is the same and
the trace gets the failed call followed by the `perror` report to the error stream. -/
theorem wish_command_chdir (os : OS) (w : World) (path : List Char) (more : List (List Char)) :
    (∀ dir, os.chdir w.trace w.cwd path = some dir →
      wish_command os (nullTerminated ("cd".toList :: path :: more)) w =
        .ret 1 { w with cwd := dir, trace := w.trace ++ [Event.chdir path true] }) ∧
    (os.chdir w.trace w.cwd path = none →
      wish_command os (nullTerminated ("cd".toList :: path :: more)) w =
        .ret 1 { w with
          trace := w.trace ++ [Event.chdir path false, Event.perror "wish".toList] }) ∧
    wish_execute os (nullTerminated ("cd".toList :: path :: more)) w =
      wish_command os (nullTerminated ("cd".toList :: path :: more)) w := by
  have harg : argAt (nullTerminated ("cd".toList :: path :: more)) 1 = some path := by
    simp [argAt, nullTerminated]
  refine ⟨?_, ?_, ?_⟩
  · intro dir hdir
    simp only [wish_command, harg, hdir]
  · intro hfail
    simp only [wish_command, harg, hfail, perror, List.append_assoc, List.singleton_append]
  · rw [wish_execute_cons]
    simp

theorem wish_command_chdir_witness :
    os0.chdir (world0 []).trace (world0 []).cwd "/tmp".toList = some "/tmp".toList ∧
    wish_command os0 (nullTerminated ["cd".toList, "/tmp".toList, "x".toList]) (world0 []) =
      .ret 1 { world0 [] with
        cwd := "/tmp".toList, trace := (world0 []).trace ++ [Event.chdir "/tmp".toList true] } ∧
    ({ os0 with chdir := fun _ _ _ => none } : OS).chdir (world0 []).trace (world0 []).cwd
      "/nonexistent-path-xyz".toList = none ∧
    wish_command { os0 with chdir := fun _ _ _ => none }
        (nullTerminated ["cd".toList, "/nonexistent-path-xyz".toList]) (world0 []) =
      .ret 1 { world0 [] with
        trace := (world0 []).trace ++ [Event.chdir "/nonexistent-path-xyz".toList false,
          Event.perror "wish".toList] } :=
  ⟨rfl,
    (wish_command_chdir os0 (world0 []) "/tmp".toList ["x".toList]).1 "/tmp".toList rfl,
    rfl,
    (wish_command_chdir { os0 with chdir := fun _ _ _ => none } (world0 [])
      "/nonexistent-path-xyz".toList []).2.1 rfl⟩

/-- C14: for every token sequence whose first token is "help", whatever the further tokens,
`wish_execute` is the call of `wish_help_command`, which for any arguments returns continue (1)
and adds to the trace exactly these writes to standard output, in this order: the two lines of
the usage banner, the builtin names `cd`, `help`, `exit` one per line in the order of the table,
and the closing line about other programs. No other event is added: no process is created and
nothing goes to the error stream. -/
theorem wish_help_command_output (os : OS) (w : World) (args : List (Option (List Char)))
    (more : List (List Char)) :
    wish_help_command os args w =
      .ret 1 { w with trace := w.trace ++
        [Event.stdout "Type program names and arguments, and hit enter.\n".toList,
         Event.stdout "The following are built in:\n".toList,
         Event.stdout "  cd\n".toList,
         Event.stdout "  help\n".toList,
         Event.stdout "  exit\n".toList,
         Event.stdout "Use the man command for information on other programs.\n".toList] } ∧
    wish_execute os (nullTerminated ("help".toList :: more)) w =
      wish_help_command os (nullTerminated ("help".toList :: more)) w ∧
    builtin_str = ["cd".toList, "help".toList, "exit".toList] := by
  refine ⟨?_, ?_, rfl⟩
  · simp [wish_help_command, wish_help_loop, wish_num_bull, builtin_str, printf]
  · rw [wish_execute_cons]
    simp

/-! ## The process launcher: claims C15, C16, C17 -/

/-- What the code does when the first `waitpid` call fails: it tests the variable `status`,
which no call has set, and returns 1 when that value looks like an exit or a signal termination,
although no status was reported. -/
theorem wish_launch_waitpid_fails (os : OS) (args : List (Option (List Char))) (w : World)
    (pid : Nat) (hfork : os.fork w.trace = .parent pid)
    (hwait : os.wait (w.trace ++ [Event.fork (.parent pid)]) pid = [])
    (hfails : os.waitFails (w.trace ++ [Event.fork (.parent pid)]) pid = true)
    (hinit : WIFEXITED (os.uninit (w.trace ++ [Event.fork (.parent pid)])) = true ∨
      WIFSIGNALED (os.uninit (w.trace ++ [Event.fork (.parent pid)])) = true) :
    wish_launch os args w =
      .ret 1 { w with
        trace := w.trace ++ [Event.fork (.parent pid), Event.waitpidFailed pid] } := by
  simp only [wish_launch, hfork, hwait, hfails, wish_wait_loop, if_true]
  rcases hinit with h | h <;> simp [h, Outcome.bind]

/-- C16: when `fork` fails, `wish_launch` reports the error with `perror` and returns continue
(1); the trace gets the failed `fork` and the report and nothing else, so there is no `waitpid`
and no `execvp`. `wish_execute` on a command that is no builtin then returns 1 as well, so the
shell keeps running. -/
theorem wish_launch_fork_failure (os : OS) (args : List (Option (List Char))) (w : World)
    (hfork : os.fork w.trace = .failed) :
    wish_launch os args w =
      .ret 1 { w with
        trace := w.trace ++ [Event.fork .failed, Event.perror "wish".toList] } ∧
    ∀ (t : List Char) (ts : List (List Char)), t ∉ builtin_str →
      wish_execute os (nullTerminated (t :: ts)) w =
        .ret 1 { w with
          trace := w.trace ++ [Event.fork .failed, Event.perror "wish".toList] } := by
  have hlaunch : ∀ a, wish_launch os a w =
      .ret 1 { w with
        trace := w.trace ++ [Event.fork .failed, Event.perror "wish".toList] } := by
    intro a
    simp only [wish_launch, hfork, perror, List.append_assoc, List.singleton_append]
  refine ⟨hlaunch args, ?_⟩
  intro t ts ht
  simp only [builtin_str, List.mem_cons, List.mem_singleton, List.not_mem_nil, or_false,
    not_or] at ht
  rw [wish_execute_cons, if_neg ht.1, if_neg ht.2.1, if_neg ht.2.2]
  exact hlaunch _

theorem wish_launch_fork_failure_witness :
    ({ os0 with fork := fun _ => .failed } : OS).fork (world0 []).trace = .failed ∧
    wish_launch { os0 with fork := fun _ => .failed } (nullTerminated ["ls".toList]) (world0 []) =
      .ret 1 { world0 [] with
        trace := (world0 []).trace ++ [Event.fork .failed, Event.perror "wish".toList] } :=
  ⟨rfl,
    (wish_launch_fork_failure { os0 with fork := fun _ => .failed }
      (nullTerminated ["ls".toList]) (world0 []) rfl).1⟩

/-- In the child, `wish_launch` ends with the new program image or with `exit(EXIT_FAILURE)`. -/
theorem wish_launch_child_eq (os : OS) (args : List (Option (List Char))) (w : World)
    (hfork : os.fork w.trace = .child) :
    wish_launch os args w =
      if os.execvp (w.trace ++ [Event.fork .child]) (argAt args 0) args = true then
        .exec (argAt args 0) args { w with
          trace := w.trace ++ [Event.fork .child, Event.execvp (argAt args 0) args] }
      else
        .exit 1 { w with
          trace := w.trace ++ [Event.fork .child, Event.execvp (argAt args 0) args,
            Event.perror "wish".toList] } := by
  simp only [wish_launch, hfork, perror, EXIT_FAILURE, List.append_assoc, List.singleton_append]
  rfl

/-- C17: in the child (`fork` returned 0) `wish_launch` never returns to its caller. It calls
`execvp` with the first token as the file and the full token sequence as the argument list; when
that succeeds the process continues as the new program, and when it fails the child reports the
error with `perror` and ends with the status `EXIT_FAILURE`, which is 1. So in the child of a
failed launch `main` ends with that exit: the rest of the input stays unread and no further
prompt is printed, there is no second shell loop. In the parent the child that ended so is seen
as an exit with status 1, and `wish_launch` returns continue (1). -/
theorem wish_launch_child (os : OS) (args : List (Option (List Char))) (w : World) :
    (os.fork w.trace = .child →
      (∀ v w', wish_launch os args w ≠ .ret v w') ∧
      (os.execvp (w.trace ++ [Event.fork .child]) (argAt args 0) args = true →
        wish_launch os args w =
          .exec (argAt args 0) args { w with
            trace := w.trace ++ [Event.fork .child, Event.execvp (argAt args 0) args] }) ∧
      (os.execvp (w.trace ++ [Event.fork .child]) (argAt args 0) args = false →
        wish_launch os args w =
          .exit 1 { w with
            trace := w.trace ++ [Event.fork .child, Event.execvp (argAt args 0) args,
              Event.perror "wish".toList] })) ∧
    (∀ (line rest t : List Char) (ts : List (List Char)),
      (∀ t n, os.alloc t n = true) → '\n' ∉ line → w.stdin = line ++ '\n' :: rest →
      maximalRuns WISH_TOK_DELIM (cstr line) = t :: ts → t ∉ builtin_str →
      os.fork (w.trace ++ [Event.stdout "wish> ".toList]) = .child →
      os.execvp (w.trace ++ [Event.stdout "wish> ".toList, Event.fork .child]) (some t)
        (nullTerminated (t :: ts)) = false →
      main os w =
        .exit 1 { w with
          stdin := rest,
          trace := w.trace ++ [Event.stdout "wish> ".toList, Event.fork .child,
            Event.execvp (some t) (nullTerminated (t :: ts)), Event.perror "wish".toList] }) ∧
    (∀ pid, os.fork w.trace = .parent pid →
      os.wait (w.trace ++ [Event.fork (.parent pid)]) pid = [.exited 1] →
      wish_launch os args w =
        .ret 1 { w with
          trace := w.trace ++ [Event.fork (.parent pid), Event.waitpid pid (.exited 1)] }) := by
  refine ⟨?_, ?_, ?_⟩
  · intro hfork
    have heq := wish_launch_child_eq os args w hfork
    refine ⟨?_, ?_, ?_⟩
    · intro v w'
      rw [heq]
      split <;> simp
    · intro hexec
      rw [heq, if_pos hexec]
    · intro hexec
      rw [heq, if_neg (by simp [hexec])]
  · intro line rest t ts halloc hnl hin htoks hext hfork hexec
    have hdrop : w.stdin.drop (line.length + 1) = rest := by
      rw [hin, List.drop_append_eq_append_drop]
      simp
    have hcycle : wish_cycle os w =
        .exit 1 { w with
          stdin := rest,
          trace := w.trace ++ [Event.stdout "wish> ".toList, Event.fork .child,
            Event.execvp (some t) (nullTerminated (t :: ts)), Event.perror "wish".toList] } := by
      rw [wish_cycle_line os w halloc line rest hnl hin]
      unfold dispatchLine
      simp only [builtin_str, List.mem_cons, List.mem_singleton, List.not_mem_nil, or_false,
        not_or] at hext
      rw [htoks, wish_execute_cons, if_neg hext.1, if_neg hext.2.1, if_neg hext.2.2, hdrop]
      have harg : argAt (nullTerminated (t :: ts)) 0 = some t := by
        simp [argAt, nullTerminated]
      rw [wish_launch_child_eq os _ _ (by simpa [printf] using hfork), harg]
      rw [if_neg (by simpa [printf] using hexec)]
      simp [printf]
    simp [main, wish_loop, wish_loop_go, hcycle, Outcome.bind]
  · intro pid hfork hwait
    simp only [wish_launch, hfork, hwait, wish_wait_loop, WIFEXITED, WIFSIGNALED, Outcome.bind]
    simp

theorem wish_launch_child_witness :
    (∀ t n, ({ os0 with fork := fun _ => .child, execvp := fun _ _ _ => false } : OS).alloc t n
      = true) ∧
    '\n' ∉ "nosuch -x".toList ∧
    (world0 "nosuch -x\nexit\n".toList).stdin = "nosuch -x".toList ++ '\n' :: "exit\n".toList ∧
    maximalRuns WISH_TOK_DELIM (cstr "nosuch -x".toList) = "nosuch".toList :: ["-x".toList] ∧
    "nosuch".toList ∉ builtin_str ∧
    main { os0 with fork := fun _ => .child, execvp := fun _ _ _ => false }
        (world0 "nosuch -x\nexit\n".toList) =
      .exit 1 { world0 "nosuch -x\nexit\n".toList with
        stdin := "exit\n".toList,
        trace := (world0 "nosuch -x\nexit\n".toList).trace ++
          [Event.stdout "wish> ".toList, Event.fork .child,
            Event.execvp (some "nosuch".toList) (nullTerminated ("nosuch".toList :: ["-x".toList])),
            Event.perror "wish".toList] } :=
  ⟨fun _ _ => rfl, by decide, by decide, by decide, by decide,
    (wish_launch_child { os0 with fork := fun _ => .child, execvp := fun _ _ _ => false }
      [] (world0 "nosuch -x\nexit\n".toList)).2.1
      "nosuch -x".toList "exit\n".toList "nosuch".toList ["-x".toList]
      (fun _ _ => rfl) (by decide) (by decide) (by decide) (by decide) rfl rfl⟩

/-! ## The stores into the token array: claim C18 -/

theorem capacityAt_tok (position : Nat) :
    position < capacityAt WISH_TOK_BUFSIZE position ∧
    (position + 1 ≥ capacityAt WISH_TOK_BUFSIZE position →
      capacityAt WISH_TOK_BUFSIZE position + WISH_TOK_BUFSIZE =
        capacityAt WISH_TOK_BUFSIZE (position + 1)) ∧
    (¬ position + 1 ≥ capacityAt WISH_TOK_BUFSIZE position →
      capacityAt WISH_TOK_BUFSIZE position = capacityAt WISH_TOK_BUFSIZE (position + 1)) := by
  simp only [capacityAt, WISH_TOK_BUFSIZE]
  omega

/-- The record of the loop of `wish_split_line`, started with the capacity that belongs to
`position`: one store for each token and one for the sentinel, at the positions that follow one
another, each with the capacity that belongs to it. -/
theorem wish_split_stores_eq (os : OS) (w : World) (halloc : ∀ t n, os.alloc t n = true) :
    ∀ (fuel : Nat) (s : List Char) (position : Nat) (stores : List (Nat × Nat)),
      s.length ≤ fuel →
      wish_split_stores os w fuel (strtok WISH_TOK_DELIM s)
          (capacityAt WISH_TOK_BUFSIZE position) position stores =
        some (stores ++ (List.range' position ((maximalRuns WISH_TOK_DELIM s).length + 1)).map
                (fun p => (p, capacityAt WISH_TOK_BUFSIZE p)),
              capacityAt WISH_TOK_BUFSIZE (position + (maximalRuns WISH_TOK_DELIM s).length)) := by
  intro fuel
  induction fuel with
  | zero =>
    intro s position stores hs
    have : s = [] := List.length_eq_zero.mp (Nat.le_zero.mp hs)
    subst this
    simp [strtok_nil, wish_split_stores, maximalRuns]
  | succ fuel ih =>
    intro s position stores hs
    rw [maximalRuns_strtok]
    cases hk : strtok WISH_TOK_DELIM s with
    | none => simp [wish_split_stores]
    | some ts =>
      obtain ⟨tok, saved⟩ := ts
      have hlen := strtok_saved_length _ s tok saved hk
      obtain ⟨-, hgrow, hkeep⟩ := capacityAt_tok position
      have hnext := ih saved (position + 1)
        (stores ++ [(position, capacityAt WISH_TOK_BUFSIZE position)]) (by omega)
      have hrange : List.range' position ((maximalRuns WISH_TOK_DELIM saved).length + 1 + 1) =
          position :: List.range' (position + 1)
            ((maximalRuns WISH_TOK_DELIM saved).length + 1) := List.range'_succ _ _ _
      simp only [wish_split_stores, halloc, if_true, List.length_cons, hrange, List.map_cons]
      split
      · rename_i hge
        rw [← hgrow hge] at hnext
        rw [hnext]
        simp [Nat.add_assoc, Nat.add_comm 1]
      · rename_i hlt
        rw [← hkeep hlt] at hnext
        rw [hnext]
        simp [Nat.add_assoc, Nat.add_comm 1]

/-- C18: in `wish_split_line`, when the allocations succeed, for a line with `n` tokens the
stores into the token array are the `n + 1` stores `tokens[p]` for `p = 0, ..., n` (the tokens,
then the NULL sentinel), the store at `p` being made with the capacity `64 * (p / 64 + 1)`; every
one of them has `position < bufsize`; the last capacity is `64 * (n / 64 + 1)`, which is above
`n`, so the sentinel fits when `n` is a multiple of 64 as well. The model of `wish_split_line`
with checked stores returns these `n` tokens and the sentinel. -/
theorem wish_split_line_in_bounds (os : OS) (w : World) (line : List Char)
    (halloc : ∀ t n, os.alloc t n = true) :
    ∃ (toks : List (List Char)) (stores : List (Nat × Nat)) (capacity : Nat),
      wish_split_line os w line = .ret (nullTerminated toks) w ∧
      wish_split_line_stores os w line = some (stores, capacity) ∧
      stores = (List.range (toks.length + 1)).map (fun p => (p, 64 * (p / 64 + 1))) ∧
      (∀ store ∈ stores, store.1 < store.2) ∧
      capacity = 64 * (toks.length / 64 + 1) ∧ toks.length < capacity ∧
      ∀ k, toks.length = 64 * k → stores.getLast? = some (64 * k, 64 * (k + 1)) := by
  have hlen : (cstr line).length ≤ line.length :=
    (List.takeWhile_sublist (fun c => c != NUL) (l := line)).length_le
  have hrec := wish_split_stores_eq os w halloc line.length (cstr line) 0 [] hlen
  refine ⟨maximalRuns WISH_TOK_DELIM (cstr line), _, _, wish_split_line_eq os w halloc line,
    ?_, rfl, ?_, rfl, ?_, ?_⟩
  · have h0 : capacityAt WISH_TOK_BUFSIZE 0 = WISH_TOK_BUFSIZE := by
      simp [capacityAt, WISH_TOK_BUFSIZE]
    rw [h0] at hrec
    simp only [wish_split_line_stores, halloc, if_true]
    rw [hrec]
    simp [capacityAt, WISH_TOK_BUFSIZE, List.range_eq_range']
  · intro store hstore
    simp only [List.mem_map, List.mem_range] at hstore
    obtain ⟨p, -, rfl⟩ := hstore
    show p < 64 * (p / 64 + 1)
    omega
  · omega
  · intro k hk
    have hdiv : 64 * k / 64 = k := by omega
    simp [List.range_succ, hk, hdiv]

theorem wish_split_line_in_bounds_witness :
    (∀ t n, os0.alloc t n = true) ∧
    ∃ (toks : List (List Char)) (stores : List (Nat × Nat)) (capacity : Nat),
      wish_split_line os0 (world0 []) "ls -l /tmp".toList = .ret (nullTerminated toks) (world0 []) ∧
      wish_split_line_stores os0 (world0 []) "ls -l /tmp".toList = some (stores, capacity) ∧
      stores = (List.range (toks.length + 1)).map (fun p => (p, 64 * (p / 64 + 1))) ∧
      (∀ store ∈ stores, store.1 < store.2) ∧
      capacity = 64 * (toks.length / 64 + 1) ∧ toks.length < capacity ∧
      ∀ k, toks.length = 64 * k → stores.getLast? = some (64 * k, 64 * (k + 1)) :=
  ⟨fun _ _ => rfl,
    wish_split_line_in_bounds os0 (world0 []) "ls -l /tmp".toList (fun _ _ => rfl)⟩

/-! ## The line reader with machine integers: lemmas -/

theorem int32_natCast (n : Nat) (h : n < 2147483648) : int32 (n : Int) = (n : Int) := by
  unfold int32
  omega

theorem size_t_natCast (n : Nat) (h : n < 18446744073709551616) : size_t (n : Int) = n := by
  unfold size_t
  omega

theorem storeInt_append {α : Type} (cap : Nat) (buf : List α) (x : α)
    (hcap : cap < 18446744073709551616) (h : buf.length < cap) :
    storeInt (cap : Int) (buf.length : Int) buf x = some (buf ++ [x]) := by
  simp only [storeInt, size_t_natCast cap hcap, Int.toNat_ofNat, Int.natCast_nonneg, if_true]
  exact store_append cap buf x h

/-- The counters after one more character, as long as no counter overflows: `position` is one
more, and `bufsize` is the capacity that belongs to it. -/
theorem counters_step (position : Nat) (h : position + 1 < 2147482624) :
    position < capacityAt WISH_RL_BUFSIZE position ∧
    capacityAt WISH_RL_BUFSIZE position < 2147483648 ∧
    capacityAt WISH_RL_BUFSIZE (position + 1) < 2147483648 ∧
    int32 ((position : Int) + 1) = ((position + 1 : Nat) : Int) ∧
    ((((position + 1 : Nat) : Int) ≥ ((capacityAt WISH_RL_BUFSIZE position : Nat) : Int)) →
      int32 (((capacityAt WISH_RL_BUFSIZE position : Nat) : Int) + (WISH_RL_BUFSIZE : Int)) =
        ((capacityAt WISH_RL_BUFSIZE (position + 1) : Nat) : Int)) ∧
    (¬ (((position + 1 : Nat) : Int) ≥ ((capacityAt WISH_RL_BUFSIZE position : Nat) : Int)) →
      capacityAt WISH_RL_BUFSIZE position = capacityAt WISH_RL_BUFSIZE (position + 1)) := by
  simp only [capacityAt, WISH_RL_BUFSIZE, int32]
  omega

/-- The loop of `wish_readline_int` over characters that are no newline, as long as no counter
overflows: it stores them one after the other and comes to the rest of the input with the
counters that belong to the number of characters stored. -/
theorem wish_readline_loop_int_run (os : OS) (w : World)
    (halloc : ∀ n, n < 2147483648 → os.alloc w.trace n = true) (rest : List Char) :
    ∀ (pre : List Char) (buffer : List Char), '\n' ∉ pre →
      buffer.length + pre.length < 2147482624 →
      wish_readline_loop_int os w (pre ++ rest)
          ((capacityAt WISH_RL_BUFSIZE buffer.length : Nat) : Int) (buffer.length : Int) buffer =
        wish_readline_loop_int os w rest
          ((capacityAt WISH_RL_BUFSIZE (buffer ++ pre).length : Nat) : Int)
          ((buffer ++ pre).length : Int) (buffer ++ pre) := by
  intro pre
  induction pre with
  | nil => intro buffer _ _; simp
  | cons c pre ih =>
    intro buffer hnl hlen
    have hc : c ≠ '\n' := fun h => hnl (by simp [h])
    have hpre : '\n' ∉ pre := fun h => hnl (List.mem_cons_of_mem _ h)
    simp only [List.length_cons] at hlen
    obtain ⟨hlt, hcap, hcap', hpos, hgrow, hkeep⟩ := counters_step buffer.length (by omega)
    have hl : (buffer ++ [c]).length = buffer.length + 1 := by simp
    have hnext := ih (buffer ++ [c]) hpre (by rw [hl]; omega)
    rw [hl] at hnext
    have hfinal : buffer ++ [c] ++ pre = buffer ++ c :: pre := by simp
    rw [hfinal] at hnext
    rw [List.cons_append, wish_readline_loop_int]
    simp only [if_neg hc, storeInt_append _ buffer c (by omega) hlt, hpos]
    split
    · rename_i hge
      rw [hgrow hge, size_t_natCast _ (by omega), halloc _ hcap']
      exact hnext
    · rename_i hsmall
      rw [hkeep hsmall]
      exact hnext

theorem capacityAt_zero : capacityAt WISH_RL_BUFSIZE 0 = WISH_RL_BUFSIZE := by
  simp [capacityAt, WISH_RL_BUFSIZE]

/-- The line reader with machine integers returns a line of fewer than `2^31 - 1024` characters
and the terminating NUL, when the allocations that it asks for succeed. -/
theorem wish_readline_int_eq (os : OS) (w : World)
    (halloc : ∀ t n, n < 2147483648 → os.alloc t n = true) (line rest : List Char)
    (hnl : '\n' ∉ line) (hin : w.stdin = line ++ '\n' :: rest) (hlen : line.length < 2147482624) :
    wish_readline_int os w = .ret (line ++ [NUL]) { w with stdin := rest } := by
  have hrun := wish_readline_loop_int_run os w (halloc w.trace) ('\n' :: rest) line [] hnl
    (by simpa using hlen)
  simp only [List.length_nil, List.nil_append, capacityAt_zero, Nat.cast_zero] at hrun
  have hlt : line.length < capacityAt WISH_RL_BUFSIZE line.length := by
    simp only [capacityAt, WISH_RL_BUFSIZE]
    omega
  have hcap : capacityAt WISH_RL_BUFSIZE line.length < 18446744073709551616 := by
    simp only [capacityAt, WISH_RL_BUFSIZE]
    omega
  have hsize : size_t ((WISH_RL_BUFSIZE : Nat) : Int) = WISH_RL_BUFSIZE :=
    size_t_natCast _ (by simp [WISH_RL_BUFSIZE])
  simp only [wish_readline_int, hsize, halloc w.trace WISH_RL_BUFSIZE (by simp [WISH_RL_BUFSIZE]),
    if_true, hin, hrun]
  rw [wish_readline_loop_int, if_pos rfl, storeInt_append _ line NUL hcap hlt]

/-- On a line of fewer than `2^31 - 1024` characters the line reader with machine integers and
the one with natural numbers as counters do the same. -/
theorem wish_readline_int_agrees (os : OS) (w : World) (halloc : ∀ t n, os.alloc t n = true)
    (line rest : List Char) (hnl : '\n' ∉ line) (hin : w.stdin = line ++ '\n' :: rest)
    (hlen : line.length < 2147482624) :
    wish_readline_int os w = wish_readline os w := by
  rw [wish_readline_int_eq os w (fun t n _ => halloc t n) line rest hnl hin hlen,
    wish_readline_eq os w halloc line rest hnl hin]

end Wish
